import Mathlib

set_option maxHeartbeats 1000000
set_option maxRecDepth 4000

/-!
Shallow embedding of `src/scripts/joint_solver.py` (CARMA arbitration platform).
Machine floats are modelled by exact rationals (`ℚ`); transcendental values
(log, exp, sqrt, powers) live in `ℝ`.
-/

namespace JointSolver

/-! ### Water-filling (`water_filling`, lines 868-920)

State of the loop: `alloc` (initialized to `mins`), `remaining`, and the
boolean `frozen` mask. The python loop runs at most 100 iterations. -/

structure WFState (n : ℕ) where
  alloc : Fin n → ℚ
  remaining : ℚ
  frozen : Fin n → Bool

/-- `active = ~frozen & (alloc < ideals)` (line 880). -/
def activePred {n : ℕ} (ideals : Fin n → ℚ) (s : WFState n) (i : Fin n) : Bool :=
  !s.frozen i && decide (s.alloc i < ideals i)

/-- The bottleneck search (lines 892-902): scan the active indices in
ascending order, tracking the strictly smallest fill ratio `slack/share`
among agents whose proportional share overflows their slack.
The accumulator holds `(bottleneck_idx, min_fill_ratio)`. -/
def bottleneck {n : ℕ} (w ideals alloc : Fin n → ℚ) (aw r : ℚ) :
    List (Fin n) → Option (Fin n × ℚ) → Option (Fin n × ℚ)
  | [], acc => acc
  | i :: rest, acc =>
    let slack := ideals i - alloc i
    let share := w i / aw * r
    let acc2 :=
      if slack < share then
        match acc with
        | none => some (i, slack / share)
        | some p => if slack / share < p.2 then some (i, slack / share) else acc
      else acc
    bottleneck w ideals alloc aw r rest acc2

/-- Degenerate branch (lines 885-890): all active priority weights are ~0,
so `remaining` is split equally over the `len` active agents, each addition
capped at the agent's own slack. -/
def degenerateResult {n : ℕ} (ideals : Fin n → ℚ) (s : WFState n) (len : ℕ) : Fin n → ℚ :=
  fun i =>
    if activePred ideals s i then
      s.alloc i + min (s.remaining / (len : ℚ)) (ideals i - s.alloc i)
    else s.alloc i

/-- Final proportional distribution (lines 912-917): every active agent gets
`(weight/active_weight) * remaining`. -/
def distributeAll {n : ℕ} (w ideals : Fin n → ℚ) (s : WFState n) (aw : ℚ) : Fin n → ℚ :=
  fun i =>
    if activePred ideals s i then s.alloc i + w i / aw * s.remaining else s.alloc i

/-- Bottleneck iteration (lines 904-911): distribute `remaining * min_fill_ratio`
proportionally over the active agents, pin the bottleneck at its ideal and
freeze it, and reduce `remaining` by the distributed amount. -/
def bottleneckStep {n : ℕ} (w ideals : Fin n → ℚ) (s : WFState n) (aw : ℚ)
    (b : Fin n) (m : ℚ) : WFState n :=
  let td := s.remaining * m
  let alloc1 : Fin n → ℚ := fun i =>
    if activePred ideals s i then s.alloc i + w i / aw * td else s.alloc i
  ⟨Function.update alloc1 b (ideals b), s.remaining - td, Function.update s.frozen b true⟩

/-- `active_weight = np.sum(weights[active])` (line 884). -/
def activeWeight {n : ℕ} (w ideals : Fin n → ℚ) (s : WFState n) : ℚ :=
  (((List.finRange n).filter (activePred ideals s)).map w).sum

/-- One iteration of the `for _ in range(100)` loop (lines 879-917).
`Sum.inl a` means the loop breaks (or would break) with allocation `a`;
`Sum.inr s2` means the loop continues with state `s2`. -/
def wfIter {n : ℕ} (w ideals : Fin n → ℚ) (s : WFState n) : (Fin n → ℚ) ⊕ WFState n :=
  if (List.finRange n).filter (activePred ideals s) = [] then Sum.inl s.alloc
  else if activeWeight w ideals s < 1 / 1000000000 then
    Sum.inl (degenerateResult ideals s ((List.finRange n).filter (activePred ideals s)).length)
  else
    match bottleneck w ideals s.alloc (activeWeight w ideals s) s.remaining
        ((List.finRange n).filter (activePred ideals s)) none with
    | some p =>
      if p.2 < 1 then Sum.inr (bottleneckStep w ideals s (activeWeight w ideals s) p.1 p.2)
      else Sum.inl (distributeAll w ideals s (activeWeight w ideals s))
    | none => Sum.inl (distributeAll w ideals s (activeWeight w ideals s))

/-- The bounded loop: at most `fuel` iterations (python uses `fuel = 100`);
when fuel runs out the current allocation is returned, exactly as the python
`for` loop falls through to the final clamp. -/
def wfLoop {n : ℕ} (w ideals : Fin n → ℚ) : ℕ → WFState n → (Fin n → ℚ)
  | 0, s => s.alloc
  | fuel + 1, s =>
    match wfIter w ideals s with
    | Sum.inl a => a
    | Sum.inr s2 => wfLoop w ideals fuel s2

/-- Allocation vector obtained after one iteration, whether the loop breaks
(`Sum.inl`) or continues (`Sum.inr`). -/
def wfIterAlloc {n : ℕ} : (Fin n → ℚ) ⊕ WFState n → (Fin n → ℚ)
  | Sum.inl a => a
  | Sum.inr s2 => s2.alloc

/-- `water_filling(weights, mins, ideals, capacity)` (lines 868-920).
If `remaining = capacity - sum(mins) <= 0` the minimums are returned
unclamped (line 874-875); otherwise the loop runs and the result is clamped
into `[mins, ideals]` (line 919). -/
def water_filling {n : ℕ} (weights mins ideals : Fin n → ℚ) (capacity : ℚ) : Fin n → ℚ :=
  let remaining := capacity - ∑ i, mins i
  if remaining ≤ 0 then mins
  else
    let res := wfLoop weights ideals 100 ⟨mins, remaining, fun _ => false⟩
    fun i => max (mins i) (min (ideals i) (res i))

/-! ### Utility configurations and the numpy evaluators (lines 398-612)

Float inputs are modelled as rationals; transcendental outputs live in `ℝ`. -/

/-- The default stabilizing constant `epsilon = 1e-6`. -/
def epsilon : ℚ := 1 / 1000000

/-- `res_to_idx = {name: idx for idx, name in enumerate(resource_names)}`:
a python dict comprehension keeps the LAST index of a duplicated name. -/
def resToIdxLast : List String → String → Option ℕ
  | [], _ => none
  | x :: xs, s =>
    match resToIdxLast xs s with
    | some j => some (j + 1)
    | none => if x = s then some 0 else none

/-- `reference_points.get(res_name, 0.0)` over the modelled association list
(python dict keys are unique, so the first match is the value). -/
def lookupRef (refs : List (String × ℚ)) (s : String) : ℚ :=
  match refs.find? (fun p => p.1 == s) with
  | some p => p.2
  | none => 0

/-- Array indexing `a[j]`. -/
def allocAt (a : List ℚ) (j : ℕ) : ℚ := a.getD j 0

/-- The tagged utility-config variants of the solver, with the recursive
`base_utility` of `THRESHOLD`/`SATIATION` and the name-keyed dictionaries of
the composite variants modelled as association lists. -/
inductive UtilityConfig where
  | LINEAR : UtilityConfig
  | SQRT : UtilityConfig
  | LOG : UtilityConfig
  | COBB_DOUGLAS : UtilityConfig
  | CES (rho : ℚ) : UtilityConfig
  | LEONTIEF : UtilityConfig
  | THRESHOLD (threshold sharpness : ℚ) (base_utility : UtilityConfig) : UtilityConfig
  | SATIATION (max_utility saturation_param : ℚ) (hyperbolic : Bool)
      (base_utility : UtilityConfig) : UtilityConfig
  | NESTED_CES (nests : List (List (String × ℚ))) (nest_rhos : List ℚ)
      (nest_weights : List ℚ) (outer_rho : ℚ) : UtilityConfig
  | SOFTPLUS_LOSS_AVERSION (weights reference_points : List (String × ℚ))
      (lambda tau : ℚ) : UtilityConfig
  | ASYMMETRIC_LOG_LOSS_AVERSION (weights reference_points : List (String × ℚ))
      (lambda kappa : ℚ) : UtilityConfig

/-- `eval_linear_utility_np` (line 401): `np.sum(w * a)`. -/
def eval_linear_utility_np (w a : List ℚ) : ℚ :=
  (List.zipWith (· * ·) w a).sum

/-- `eval_sqrt_utility_np` (line 406): `np.sum(w * sqrt(max(a, eps))) ** 2`. -/
noncomputable def eval_sqrt_utility_np (w a : List ℚ) : ℝ :=
  ((List.zipWith (fun wj aj => (wj : ℝ) * Real.sqrt ((max aj epsilon : ℚ) : ℝ)) w a).sum) ^ 2

/-- `eval_log_utility_np` (line 412): `np.sum(w * log(1 + a + eps))`. -/
noncomputable def eval_log_utility_np (w a : List ℚ) : ℝ :=
  (List.zipWith (fun wj aj => (wj : ℝ) * Real.log ((1 + aj + epsilon : ℚ) : ℝ)) w a).sum

/-- `eval_cobb_douglas_utility_np` (line 417): `np.prod(max(a, eps) ** w)`. -/
noncomputable def eval_cobb_douglas_utility_np (w a : List ℚ) : ℝ :=
  (List.zipWith (fun wj aj => ((max aj epsilon : ℚ) : ℝ) ^ (wj : ℝ)) w a).prod

/-- `eval_ces_utility_np` (lines 422-429). -/
noncomputable def eval_ces_utility_np (w a : List ℚ) (rho : ℚ) : ℝ :=
  if |rho - 1| < 1 / 100 then (eval_linear_utility_np w a : ℝ)
  else if |rho| < 1 / 100 then eval_cobb_douglas_utility_np w a
  else ((List.zipWith (fun wj aj => (wj : ℝ) * ((max aj epsilon : ℚ) : ℝ) ^ ((rho : ℚ) : ℝ))
    w a).sum) ^ ((1 : ℝ) / (rho : ℝ))

/-- Numerically stable `sigmoid` (lines 432-436). -/
noncomputable def sigmoid (x : ℚ) : ℝ :=
  if 0 ≤ x then 1 / (1 + Real.exp (-(x : ℝ)))
  else Real.exp (x : ℝ) / (1 + Real.exp (x : ℝ))

/-- The `LEONTIEF` arm of `eval_utility_np` (lines 590-594):
`np.min(a[mask] / w[mask])` over the mask `w > 1e-8`, or `0` if empty. -/
def eval_leontief_utility_np (w a : List ℚ) : ℚ :=
  match ((List.zipWith (fun wj aj => (wj, aj)) w a).filter
      (fun p => 1 / 100000000 < p.1)).map (fun p => p.2 / p.1) with
  | [] => 0
  | x :: xs => xs.foldl min x

/-- One nest of `eval_nested_ces_utility_np` (lines 479-498): Cobb-Douglas
for `|rho| < 0.01`, otherwise the CES power form; unknown resource names are
silently skipped. -/
noncomputable def nestValue (names : List String) (a : List ℚ)
    (nest : List (String × ℚ)) (rho : ℚ) : ℝ :=
  if |rho| < 1 / 100 then
    Real.exp ((nest.map (fun p =>
      match resToIdxLast names p.1 with
      | some j => (p.2 : ℝ) * Real.log ((max (allocAt a j) epsilon : ℚ) : ℝ)
      | none => 0)).sum)
  else
    (max ((nest.map (fun p =>
      match resToIdxLast names p.1 with
      | some j => (p.2 : ℝ) * ((max (allocAt a j) epsilon : ℚ) : ℝ) ^ ((rho : ℚ) : ℝ)
      | none => 0)).sum) ((epsilon : ℚ) : ℝ)) ^ ((1 : ℝ) / (rho : ℝ))

/-- `eval_nested_ces_utility_np` (lines 467-512): nest values combined by an
outer CES/Cobb-Douglas rule; a missing `nest_weights[i]` defaults to
`1 / len(nest_values)` and a missing `nest_rhos[i]` to `0.5`. -/
noncomputable def eval_nested_ces_utility_np (w a : List ℚ)
    (nests : List (List (String × ℚ))) (nest_rhos nest_weights : List ℚ)
    (outer_rho : ℚ) (names : List String) : ℝ :=
  if nests = [] then (eval_linear_utility_np w a : ℝ)
  else
    let nest_values : List ℝ :=
      nests.enum.map (fun p => nestValue names a p.2 (nest_rhos.getD p.1 (1 / 2)))
    if |outer_rho| < 1 / 100 then
      Real.exp ((nest_values.enum.map (fun q =>
        ((nest_weights.getD q.1 (1 / (nests.length : ℚ))) : ℝ)
          * Real.log (max q.2 ((epsilon : ℚ) : ℝ)))).sum)
    else
      (max ((nest_values.enum.map (fun q =>
        ((nest_weights.getD q.1 (1 / (nests.length : ℚ))) : ℝ)
          * (max q.2 ((epsilon : ℚ) : ℝ)) ^ ((outer_rho : ℚ) : ℝ))).sum) ((epsilon : ℚ) : ℝ))
        ^ ((1 : ℝ) / (outer_rho : ℝ))

/-- `eval_softplus_loss_aversion_np` (lines 515-542): the numerically stable
piecewise form of `g(x) = x - (lambda - 1) * tau * log(1 + exp(-x / tau))`,
accumulated over the named weights; names missing from the resource list are
skipped and missing reference points default to `0`. -/
noncomputable def eval_softplus_loss_aversion_np (names : List String) (a : List ℚ)
    (weights reference_points : List (String × ℚ)) (lambda tau : ℚ) : ℝ :=
  weights.foldl (fun utility p =>
    match resToIdxLast names p.1 with
    | none => utility
    | some j =>
      let x : ℚ := allocAt a j - lookupRef reference_points p.1
      let g : ℝ :=
        if 20 < x / tau then (x : ℝ)
        else if x / tau < -20 then (lambda : ℝ) * (x : ℝ)
        else (x : ℝ) - ((lambda : ℝ) - 1) * (tau : ℝ)
          * Real.log (1 + Real.exp (-((x : ℝ) / (tau : ℝ))))
      utility + (p.2 : ℝ) * g) 0

/-- `eval_asymmetric_log_loss_aversion_np` (lines 545-569): note the
parameter clamps `lambda_param = max(1.0, lambda)` and
`kappa = max(epsilon, kappa)` at lines 548-549. -/
noncomputable def eval_asymmetric_log_loss_aversion_np (names : List String) (a : List ℚ)
    (weights reference_points : List (String × ℚ)) (lambda kappa : ℚ) : ℝ :=
  weights.foldl (fun utility p =>
    match resToIdxLast names p.1 with
    | none => utility
    | some j =>
      let x : ℚ := allocAt a j - lookupRef reference_points p.1
      let g : ℝ :=
        if 0 ≤ x then Real.log (1 + (x : ℝ) / ((max epsilon kappa : ℚ) : ℝ))
        else -((max 1 lambda : ℚ) : ℝ)
          * Real.log (1 + ((|x| : ℚ) : ℝ) / ((max epsilon kappa : ℚ) : ℝ))
      utility + (p.2 : ℝ) * g) 0

/-- Dispatch of `eval_utility_np` on a present config (lines 577-612).
The `names` argument mirrors python's optional `resource_names`: the
recursive base-utility calls of `THRESHOLD` (line 445) and `SATIATION`
(line 459) omit it, so name-keyed variants nested inside a composite config
fall back to `LINEAR`. -/
noncomputable def eval_utility_core (w a : List ℚ) (names : Option (List String)) :
    UtilityConfig → ℝ
  | .LINEAR => (eval_linear_utility_np w a : ℝ)
  | .SQRT => eval_sqrt_utility_np w a
  | .LOG => eval_log_utility_np w a
  | .COBB_DOUGLAS => eval_cobb_douglas_utility_np w a
  | .CES rho => eval_ces_utility_np w a rho
  | .LEONTIEF => (eval_leontief_utility_np w a : ℝ)
  | .THRESHOLD threshold sharpness base_utility =>
      sigmoid (sharpness * (a.sum - threshold)) * eval_utility_core w a none base_utility
  | .SATIATION max_utility saturation_param hyperbolic base_utility =>
      let base_util := eval_utility_core w a none base_utility
      if hyperbolic then
        (max_utility : ℝ) * base_util
          / ((saturation_param : ℝ) + base_util + ((epsilon : ℚ) : ℝ))
      else (max_utility : ℝ) * (1 - Real.exp (-base_util / (saturation_param : ℝ)))
  | .NESTED_CES nests nest_rhos nest_weights outer_rho =>
      match names with
      | none => (eval_linear_utility_np w a : ℝ)
      | some ns => eval_nested_ces_utility_np w a nests nest_rhos nest_weights outer_rho ns
  | .SOFTPLUS_LOSS_AVERSION weights reference_points lambda tau =>
      match names with
      | none => (eval_linear_utility_np w a : ℝ)
      | some ns => eval_softplus_loss_aversion_np ns a weights reference_points lambda tau
  | .ASYMMETRIC_LOG_LOSS_AVERSION weights reference_points lambda kappa =>
      match names with
      | none => (eval_linear_utility_np w a : ℝ)
      | some ns =>
          eval_asymmetric_log_loss_aversion_np ns a weights reference_points lambda kappa

/-- `eval_utility_np` (lines 572-612): a `None` config means `LINEAR`. -/
noncomputable def eval_utility_np (w a : List ℚ) (cfg : Option UtilityConfig)
    (names : Option (List String)) : ℝ :=
  match cfg with
  | none => (eval_linear_utility_np w a : ℝ)
  | some c => eval_utility_core w a names c

/-! ### Request data and the two solve paths -/

/-- The decoded request of `solve_joint_allocation` / `solve_sequential_fallback`
after shape validation: per-agent utility configs are already resolved
(`None`, a single config broadcast, or one per agent). -/
structure ProblemData (n m : ℕ) where
  preferences : Fin n → Fin m → ℚ
  priority_weights : Fin n → ℚ
  capacities : Fin m → ℚ
  minimums : Fin n → Fin m → ℚ
  ideals : Fin n → Fin m → ℚ
  resource_names : List String
  utility_configs : Fin n → Option UtilityConfig

/-- Row `M[i, :]` as the list handed to the numpy evaluators. -/
def matRow {n m : ℕ} (M : Fin n → Fin m → ℚ) (i : Fin n) : List ℚ :=
  List.ofFn (M i)

/-- The three values interpolated into the infeasibility message
`f"Resource {j}: sum of minimums ({min_totals[j]}) exceeds capacity ({Q[j]})"`
(line 657). -/
structure InfeasibleDiag where
  resource : ℕ
  min_total : ℚ
  capacity : ℚ
deriving DecidableEq

/-- `min_totals = np.sum(mins, axis=0)` (line 652). -/
def minTotals {n m : ℕ} (mins : Fin n → Fin m → ℚ) : Fin m → ℚ :=
  fun j => ∑ i, mins i j

/-- The first resource index failing the feasibility check (lines 653-654). -/
def firstInfeasible {n m : ℕ} (mins : Fin n → Fin m → ℚ) (Q : Fin m → ℚ) :
    Option (Fin m) :=
  (List.finRange m).find? (fun j => decide (Q j < minTotals mins j))

/-- Outcome of the pre-solve phase of `solve_joint_allocation`: either the
early infeasible return (status, diagnostic, allocations, objective, solver
fields of lines 655-661) or the minimums the backend solve proceeds with. -/
inductive PreCheckOutcome (n m : ℕ) where
  | infeasible (status : String) (error : InfeasibleDiag)
      (allocations : Fin n → Fin m → ℚ) (objective : WithBot ℚ) (solver : String)
  | proceed (normalizedMins : Fin n → Fin m → ℚ)

def PreCheckOutcome.isProceed {n m : ℕ} : PreCheckOutcome n m → Bool
  | .proceed _ => true
  | _ => false

/-- Feasibility phase of `solve_joint_allocation` (lines 651-664): the first
resource whose minimum totals exceed capacity aborts with an infeasible
result carrying the RAW minimums and `float('-inf')` (modelled as `⊥`);
otherwise minimums are clamped elementwise to ideals
(`mins = np.minimum(mins, ideals)`, line 664) and the solve proceeds. -/
def solve_joint_precheck {n m : ℕ} (d : ProblemData n m) : PreCheckOutcome n m :=
  match firstInfeasible d.minimums d.capacities with
  | some j => .infeasible "infeasible"
      ⟨(j : ℕ), minTotals d.minimums j, d.capacities j⟩ d.minimums ⊥ "none"
  | none => .proceed (fun i j => min (d.minimums i j) (d.ideals i j))

/-- Per-column water-filling of `solve_sequential_fallback` (lines 837-844):
`weights = c` (the priority weights), one independent run per resource. -/
def fallbackAllocations {n m : ℕ} (d : ProblemData n m) : Fin n → Fin m → ℚ :=
  fun i j => water_filling d.priority_weights (fun i2 => d.minimums i2 j)
    (fun i2 => d.ideals i2 j) (d.capacities j) i

/-- The dict returned by `solve_sequential_fallback`; it carries no `error`
key, modelled as `error = none`. -/
structure FallbackResult (n m : ℕ) where
  status : String
  solver : String
  allocations : Fin n → Fin m → ℚ
  objective : ℝ
  utilities : Fin n → ℝ
  welfare : ℝ
  warning : Option String
  error : Option String

/-- `solve_sequential_fallback` (lines 817-865). Note the welfare of lines
854-855: `epsilon = 1e-8` is ADDED inside the log, unlike the main path. -/
noncomputable def solve_sequential_fallback {n m : ℕ} (d : ProblemData n m) :
    FallbackResult n m :=
  let allocations := fallbackAllocations d
  let utilities : Fin n → ℝ := fun i =>
    eval_utility_np (matRow d.preferences i) (matRow allocations i)
      (d.utility_configs i) (some d.resource_names)
  let welfare : ℝ :=
    ∑ i, (d.priority_weights i : ℝ) * Real.log (utilities i + 1 / 100000000)
  { status := "sequential_fallback"
    solver := "water_filling"
    allocations := allocations
    objective := welfare
    utilities := utilities
    welfare := welfare
    warning := some "Using sequential optimization - LOCAL Pareto only"
    error := none }

/-- The `utility_types` entry `cfg.get('type', 'LINEAR') if cfg else 'LINEAR'`
(lines 810-813). -/
def utilityTypeName : Option UtilityConfig → String
  | none => "LINEAR"
  | some .LINEAR => "LINEAR"
  | some .SQRT => "SQRT"
  | some .LOG => "LOG"
  | some .COBB_DOUGLAS => "COBB_DOUGLAS"
  | some (.CES _) => "CES"
  | some .LEONTIEF => "LEONTIEF"
  | some (.THRESHOLD _ _ _) => "THRESHOLD"
  | some (.SATIATION _ _ _ _) => "SATIATION"
  | some (.NESTED_CES _ _ _ _) => "NESTED_CES"
  | some (.SOFTPLUS_LOSS_AVERSION _ _ _ _) => "SOFTPLUS_LOSS_AVERSION"
  | some (.ASYMMETRIC_LOG_LOSS_AVERSION _ _ _ _) => "ASYMMETRIC_LOG_LOSS_AVERSION"

/-- The dict returned by the optimal path of `solve_joint_allocation`. -/
structure OptimalResult (n m : ℕ) where
  status : String
  solver : String
  allocations : Fin n → Fin m → ℚ
  objective : ℝ
  utilities : Fin n → ℝ
  welfare : ℝ
  utility_types : Fin n → String

/-- Solution extraction and reporting of `solve_joint_allocation`
(lines 786-814), parameterized by the allocation matrix and objective value
the external backend returned: allocations are clamped nonnegative
(line 791), utilities are recomputed by `eval_utility_np` on the clamped
allocation (lines 794-798), and welfare floors them at `epsilon = 1e-6`
before the log (line 801). -/
noncomputable def synthesizeOptimal {n m : ℕ} (d : ProblemData n m)
    (Astar : Fin n → Fin m → ℚ) (objectiveValue : ℝ) (usedSolver : String) :
    OptimalResult n m :=
  let allocations : Fin n → Fin m → ℚ := fun i j => max (Astar i j) 0
  let actual_utilities : Fin n → ℝ := fun i =>
    eval_utility_np (matRow d.preferences i) (matRow allocations i)
      (d.utility_configs i) (some d.resource_names)
  let welfare : ℝ :=
    ∑ i, (d.priority_weights i : ℝ) * Real.log (max (actual_utilities i) ((epsilon : ℚ) : ℝ))
  { status := "optimal"
    solver := usedSolver
    allocations := allocations
    objective := objectiveValue
    utilities := actual_utilities
    welfare := welfare
    utility_types := fun i => utilityTypeName (d.utility_configs i) }

/-! ### Concrete request instances used by witnesses and counterexamples -/

/-- A feasible two-agent, one-resource linear request. -/
def C1data : ProblemData 2 1 where
  preferences := fun _ _ => 1
  priority_weights := fun _ => 1
  capacities := fun _ => 10
  minimums := fun _ _ => 1
  ideals := fun _ _ => 10
  resource_names := ["R0"]
  utility_configs := fun _ => none

/-- Minimum totals 8 exceed the capacity 6 of the only resource. -/
def C2data : ProblemData 2 1 where
  preferences := fun _ _ => 1
  priority_weights := fun _ => 1
  capacities := fun _ => 6
  minimums := fun _ _ => 4
  ideals := fun _ _ => 8
  resource_names := ["R0"]
  utility_configs := fun _ => none

/-- The spec's infeasibility scenario: `minimums=[[6],[6]]`, `capacity=[10]`. -/
def C3data : ProblemData 2 1 where
  preferences := fun _ _ => 1
  priority_weights := fun _ => 1
  capacities := fun _ => 10
  minimums := fun _ _ => 6
  ideals := fun _ _ => 6
  resource_names := ["R0"]
  utility_configs := fun _ => none

/-- A single linear agent receiving the full capacity 10. -/
def C4data : ProblemData 1 1 where
  preferences := fun _ _ => 1
  priority_weights := fun _ => 1
  capacities := fun _ => 10
  minimums := fun _ _ => 0
  ideals := fun _ _ => 10
  resource_names := ["R0"]
  utility_configs := fun _ => none

/-- The end-to-end scenario of C7: `n=2, m=1`, unit preferences and
priorities, capacity 10, zero minimums, ideals 10, all-Linear utilities. -/
def C7data : ProblemData 2 1 where
  preferences := fun _ _ => 1
  priority_weights := fun _ => 1
  capacities := fun _ => 10
  minimums := fun _ _ => 0
  ideals := fun _ _ => 10
  resource_names := ["R0"]
  utility_configs := fun _ => none

/-- One agent, two resources: resource 0 infeasible (minimum 5 > capacity 3),
resource 1 feasible with slack. -/
def C10data : ProblemData 1 2 where
  preferences := fun _ _ => 1
  priority_weights := fun _ => 1
  capacities := ![3, 10]
  minimums := fun _ => ![5, 0]
  ideals := fun _ => ![5, 10]
  resource_names := ["R0", "R1"]
  utility_configs := fun _ => none

/-! ### List-sum helpers for the loop invariants -/

lemma list_sum_map_ite_add {n : ℕ} (p : Fin n → Bool) (f g : Fin n → ℚ) (l : List (Fin n)) :
    (l.map fun i => if p i then f i + g i else f i).sum
      = (l.map f).sum + ((l.filter p).map g).sum := by
  induction l with
  | nil => simp
  | cons i l ih =>
    by_cases hp : p i
    · simp only [List.map_cons, List.sum_cons, List.filter_cons, hp, if_pos, ite_true]
      rw [ih]; ring
    · simp only [List.map_cons, List.sum_cons, List.filter_cons, hp, ite_false,
        Bool.false_eq_true, if_false]
      rw [ih]; ring

lemma list_sum_map_div_mul {n : ℕ} (w : Fin n → ℚ) (aw t : ℚ) (l : List (Fin n)) :
    (l.map fun i => w i / aw * t).sum = (l.map w).sum / aw * t := by
  induction l with
  | nil => simp
  | cons i l ih =>
    simp only [List.map_cons, List.sum_cons, ih]
    ring

lemma list_sum_map_min_le {n : ℕ} (slack : Fin n → ℚ) (q : ℚ) (_hq : 0 ≤ q)
    (l : List (Fin n)) :
    (l.map fun i => min q (slack i)).sum ≤ (l.length : ℚ) * q := by
  induction l with
  | nil => simp
  | cons i l ih =>
    simp only [List.map_cons, List.sum_cons, List.length_cons]
    have h1 : min q (slack i) ≤ q := min_le_left _ _
    push_cast
    nlinarith

/-! ### Specification of the bottleneck search -/

lemma bottleneck_none {n : ℕ} (w ideals alloc : Fin n → ℚ) (aw r : ℚ) :
    ∀ (l : List (Fin n)) (acc : Option (Fin n × ℚ)),
      bottleneck w ideals alloc aw r l acc = none →
      acc = none ∧ ∀ i ∈ l, ¬ (ideals i - alloc i < w i / aw * r) := by
  intro l
  induction l with
  | nil => intro acc h; simpa [bottleneck] using h
  | cons i l ih =>
    rintro (_ | ⟨bi, bm⟩) h
    · simp only [bottleneck] at h
      by_cases hov : ideals i - alloc i < w i / aw * r
      · rw [if_pos hov] at h
        exact absurd (ih _ h).1 (by simp)
      · rw [if_neg hov] at h
        obtain ⟨h1, h2⟩ := ih _ h
        refine ⟨h1, ?_⟩
        intro j hj
        rcases List.mem_cons.1 hj with rfl | hj
        · exact hov
        · exact h2 j hj
    · simp only [bottleneck] at h
      by_cases hov : ideals i - alloc i < w i / aw * r
      · rw [if_pos hov] at h
        by_cases hlt : (ideals i - alloc i) / (w i / aw * r) < bm
        · rw [if_pos hlt] at h
          exact absurd (ih _ h).1 (by simp)
        · rw [if_neg hlt] at h
          exact absurd (ih _ h).1 (by simp)
      · rw [if_neg hov] at h
        exact absurd (ih _ h).1 (by simp)

lemma bottleneck_some {n : ℕ} (w ideals alloc : Fin n → ℚ) (aw r : ℚ) :
    ∀ (l : List (Fin n)) (acc : Option (Fin n × ℚ)) (b : Fin n) (m : ℚ),
      bottleneck w ideals alloc aw r l acc = some (b, m) →
      (acc = some (b, m) ∨
        (b ∈ l ∧ ideals b - alloc b < w b / aw * r ∧
          m = (ideals b - alloc b) / (w b / aw * r))) ∧
      (∀ i ∈ l, ideals i - alloc i < w i / aw * r →
        m ≤ (ideals i - alloc i) / (w i / aw * r)) ∧
      (∀ q : Fin n × ℚ, acc = some q → m ≤ q.2) := by
  intro l
  induction l with
  | nil =>
    intro acc b m h
    simp only [bottleneck] at h
    refine ⟨Or.inl h, by simp, ?_⟩
    intro q hq
    rw [h] at hq
    have := Option.some.inj hq
    rw [← this]
  | cons i l ih =>
    rintro (_ | ⟨bi, bm⟩) b m h
    · simp only [bottleneck] at h
      by_cases hov : ideals i - alloc i < w i / aw * r
      · rw [if_pos hov] at h
        obtain ⟨hA, hB, hC⟩ := ih _ _ _ h
        refine ⟨?_, ?_, by simp⟩
        · rcases hA with hA | hA
          · obtain ⟨h1, h2⟩ := Prod.mk.injEq .. ▸ Option.some.inj hA
            subst h1; subst h2
            exact Or.inr ⟨List.mem_cons_self .., hov, rfl⟩
          · exact Or.inr ⟨List.mem_cons_of_mem _ hA.1, hA.2⟩
        · intro j hj hjov
          rcases List.mem_cons.1 hj with rfl | hj
          · exact hC _ rfl
          · exact hB j hj hjov
      · rw [if_neg hov] at h
        obtain ⟨hA, hB, hC⟩ := ih _ _ _ h
        refine ⟨?_, ?_, by simp⟩
        · rcases hA with hA | hA
          · exact absurd hA (by simp)
          · exact Or.inr ⟨List.mem_cons_of_mem _ hA.1, hA.2⟩
        · intro j hj hjov
          rcases List.mem_cons.1 hj with rfl | hj
          · exact absurd hjov hov
          · exact hB j hj hjov
    · simp only [bottleneck] at h
      by_cases hov : ideals i - alloc i < w i / aw * r
      · rw [if_pos hov] at h
        by_cases hlt : (ideals i - alloc i) / (w i / aw * r) < bm
        · rw [if_pos hlt] at h
          obtain ⟨hA, hB, hC⟩ := ih _ _ _ h
          refine ⟨?_, ?_, ?_⟩
          · rcases hA with hA | hA
            · obtain ⟨h1, h2⟩ := Prod.mk.injEq .. ▸ Option.some.inj hA
              subst h1; subst h2
              exact Or.inr ⟨List.mem_cons_self .., hov, rfl⟩
            · exact Or.inr ⟨List.mem_cons_of_mem _ hA.1, hA.2⟩
          · intro j hj hjov
            rcases List.mem_cons.1 hj with rfl | hj
            · exact hC _ rfl
            · exact hB j hj hjov
          · intro q hq
            have hm : m ≤ (ideals i - alloc i) / (w i / aw * r) := hC _ rfl
            have := Option.some.inj hq
            rw [← this]
            exact hm.trans hlt.le
        · rw [if_neg hlt] at h
          obtain ⟨hA, hB, hC⟩ := ih _ _ _ h
          refine ⟨?_, ?_, ?_⟩
          · rcases hA with hA | hA
            · exact Or.inl hA
            · exact Or.inr ⟨List.mem_cons_of_mem _ hA.1, hA.2⟩
          · intro j hj hjov
            rcases List.mem_cons.1 hj with rfl | hj
            · exact (hC _ rfl).trans (not_lt.1 hlt)
            · exact hB j hj hjov
          · intro q hq
            have := Option.some.inj hq
            rw [← this]
            exact hC _ rfl
      · rw [if_neg hov] at h
        obtain ⟨hA, hB, hC⟩ := ih _ _ _ h
        refine ⟨?_, ?_, ?_⟩
        · rcases hA with hA | hA
          · exact Or.inl hA
          · exact Or.inr ⟨List.mem_cons_of_mem _ hA.1, hA.2⟩
        · intro j hj hjov
          rcases List.mem_cons.1 hj with rfl | hj
          · exact absurd hjov hov
          · exact hB j hj hjov
        · intro q hq
          have := Option.some.inj hq
          rw [← this]
          exact hC _ rfl

/-! ### Facts about one water-filling iteration -/

lemma activePred_iff {n : ℕ} (ideals : Fin n → ℚ) (s : WFState n) (i : Fin n) :
    activePred ideals s i = true ↔ s.frozen i = false ∧ s.alloc i < ideals i := by
  simp [activePred]

lemma mem_actList {n : ℕ} {ideals : Fin n → ℚ} {s : WFState n} {i : Fin n} :
    i ∈ (List.finRange n).filter (activePred ideals s) ↔ activePred ideals s i = true := by
  simp [List.mem_filter, List.mem_finRange]

lemma activeWeight_pos {n : ℕ} {w ideals : Fin n → ℚ} {s : WFState n}
    (hdeg : ¬ activeWeight w ideals s < 1 / 1000000000) :
    0 < activeWeight w ideals s :=
  lt_of_lt_of_le (by norm_num) (not_lt.1 hdeg)

lemma sum_univ_ite_add {n : ℕ} (p : Fin n → Bool) (f g : Fin n → ℚ) :
    (∑ i, if p i then f i + g i else f i)
      = (∑ i, f i) + (((List.finRange n).filter p).map g).sum := by
  rw [Fin.sum_univ_def, Fin.sum_univ_def, list_sum_map_ite_add]

lemma degenerateResult_spec {n : ℕ} (ideals : Fin n → ℚ) (s : WFState n)
    (hr : 0 < s.remaining) (hub : ∀ i, s.alloc i ≤ ideals i)
    (hemp : (List.finRange n).filter (activePred ideals s) ≠ []) :
    (∀ i, s.alloc i ≤
        degenerateResult ideals s ((List.finRange n).filter (activePred ideals s)).length i) ∧
    (∀ i, degenerateResult ideals s ((List.finRange n).filter (activePred ideals s)).length i
        ≤ ideals i) ∧
    (∑ i, degenerateResult ideals s ((List.finRange n).filter (activePred ideals s)).length i)
      ≤ (∑ i, s.alloc i) + s.remaining := by
  have hlen : 0 < ((List.finRange n).filter (activePred ideals s)).length :=
    List.length_pos.2 hemp
  have hlenQ : (0 : ℚ) < (((List.finRange n).filter (activePred ideals s)).length : ℚ) := by
    exact_mod_cast hlen
  have heq_pos : 0 < s.remaining / (((List.finRange n).filter (activePred ideals s)).length : ℚ) :=
    div_pos hr hlenQ
  refine ⟨?_, ?_, ?_⟩
  · intro i
    unfold degenerateResult
    by_cases hia : activePred ideals s i = true
    · rw [if_pos hia]
      have hsl : 0 < ideals i - s.alloc i := by
        have := ((activePred_iff ideals s i).1 hia).2
        linarith
      have : 0 ≤ min (s.remaining / (((List.finRange n).filter (activePred ideals s)).length : ℚ))
          (ideals i - s.alloc i) := le_min heq_pos.le hsl.le
      linarith
    · rw [if_neg hia]
  · intro i
    unfold degenerateResult
    by_cases hia : activePred ideals s i = true
    · rw [if_pos hia]
      have := min_le_right (s.remaining /
        (((List.finRange n).filter (activePred ideals s)).length : ℚ)) (ideals i - s.alloc i)
      linarith
    · rw [if_neg hia]
      exact hub i
  · unfold degenerateResult
    rw [sum_univ_ite_add (activePred ideals s) s.alloc
      (fun i => min (s.remaining / (((List.finRange n).filter (activePred ideals s)).length : ℚ))
        (ideals i - s.alloc i))]
    have hle := list_sum_map_min_le (fun i => ideals i - s.alloc i)
      (s.remaining / (((List.finRange n).filter (activePred ideals s)).length : ℚ))
      heq_pos.le ((List.finRange n).filter (activePred ideals s))
    have hcancel : (((List.finRange n).filter (activePred ideals s)).length : ℚ) *
        (s.remaining / (((List.finRange n).filter (activePred ideals s)).length : ℚ))
        = s.remaining := by
      field_simp
    rw [hcancel] at hle
    linarith

lemma distributeAll_sum {n : ℕ} (w ideals : Fin n → ℚ) (s : WFState n)
    (haw0 : activeWeight w ideals s ≠ 0) :
    (∑ i, distributeAll w ideals s (activeWeight w ideals s) i)
      = (∑ i, s.alloc i) + s.remaining := by
  unfold distributeAll
  rw [sum_univ_ite_add (activePred ideals s) s.alloc
      (fun i => w i / activeWeight w ideals s * s.remaining),
    list_sum_map_div_mul]
  rw [show (((List.finRange n).filter (activePred ideals s)).map w).sum
      = activeWeight w ideals s from rfl]
  rw [div_self haw0, one_mul]

lemma distributeAll_bounds {n : ℕ} (w ideals : Fin n → ℚ) (s : WFState n)
    (hw : ∀ i, 0 ≤ w i) (hr : 0 < s.remaining) (hub : ∀ i, s.alloc i ≤ ideals i)
    (haw : 0 < activeWeight w ideals s)
    (hnoov : ∀ i, activePred ideals s i = true →
      ¬ (ideals i - s.alloc i < w i / activeWeight w ideals s * s.remaining)) :
    (∀ i, s.alloc i ≤ distributeAll w ideals s (activeWeight w ideals s) i) ∧
    (∀ i, distributeAll w ideals s (activeWeight w ideals s) i ≤ ideals i) := by
  constructor
  · intro i
    unfold distributeAll
    by_cases hia : activePred ideals s i = true
    · rw [if_pos hia]
      have : 0 ≤ w i / activeWeight w ideals s * s.remaining :=
        mul_nonneg (div_nonneg (hw i) haw.le) hr.le
      linarith
    · rw [if_neg hia]
  · intro i
    unfold distributeAll
    by_cases hia : activePred ideals s i = true
    · rw [if_pos hia]
      have := not_lt.1 (hnoov i hia)
      linarith
    · rw [if_neg hia]
      exact hub i

lemma bottleneckStep_spec {n : ℕ} (w ideals : Fin n → ℚ) (hw : ∀ i, 0 ≤ w i)
    (s : WFState n) (hr : 0 < s.remaining) (hub : ∀ i, s.alloc i ≤ ideals i)
    (b : Fin n) (m : ℚ)
    (hdeg : ¬ activeWeight w ideals s < 1 / 1000000000)
    (hbn : bottleneck w ideals s.alloc (activeWeight w ideals s) s.remaining
        ((List.finRange n).filter (activePred ideals s)) none = some (b, m))
    (hm1 : m < 1) :
    (∀ i, s.alloc i ≤ (bottleneckStep w ideals s (activeWeight w ideals s) b m).alloc i) ∧
    (∀ i, (bottleneckStep w ideals s (activeWeight w ideals s) b m).alloc i ≤ ideals i) ∧
    0 < (bottleneckStep w ideals s (activeWeight w ideals s) b m).remaining ∧
    ((∑ i, (bottleneckStep w ideals s (activeWeight w ideals s) b m).alloc i)
        + (bottleneckStep w ideals s (activeWeight w ideals s) b m).remaining
      = (∑ i, s.alloc i) + s.remaining) ∧
    (∀ i, s.frozen i = true →
      (bottleneckStep w ideals s (activeWeight w ideals s) b m).frozen i = true) ∧
    ((∀ i, s.frozen i = true → s.alloc i = ideals i) →
      ∀ i, (bottleneckStep w ideals s (activeWeight w ideals s) b m).frozen i = true →
        (bottleneckStep w ideals s (activeWeight w ideals s) b m).alloc i = ideals i) ∧
    (Finset.univ.filter
        (fun i => (bottleneckStep w ideals s (activeWeight w ideals s) b m).frozen i = false)).card
      < (Finset.univ.filter (fun i => s.frozen i = false)).card := by
  have haw : 0 < activeWeight w ideals s := activeWeight_pos hdeg
  obtain ⟨hA, hB, _⟩ := bottleneck_some w ideals s.alloc (activeWeight w ideals s)
    s.remaining _ _ _ _ hbn
  rcases hA with hA | ⟨hbmem, hov, hmv⟩
  · exact absurd hA (by simp)
  have hbact : activePred ideals s b = true := mem_actList.1 hbmem
  have hb_frozen : s.frozen b = false := ((activePred_iff ideals s b).1 hbact).1
  have hb_lt : s.alloc b < ideals b := ((activePred_iff ideals s b).1 hbact).2
  have hslack_pos : 0 < ideals b - s.alloc b := by linarith
  have hshare_pos : 0 < w b / activeWeight w ideals s * s.remaining :=
    lt_trans hslack_pos hov
  have hm_pos : 0 < m := by
    rw [hmv]; exact div_pos hslack_pos hshare_pos
  -- the bottleneck agent lands exactly at its ideal before being pinned there
  have hb_exact : w b / activeWeight w ideals s * (s.remaining * m) = ideals b - s.alloc b := by
    have h1 : w b / activeWeight w ideals s * (s.remaining * m)
        = (w b / activeWeight w ideals s * s.remaining) * m := by ring
    rw [h1, hmv, mul_comm, div_mul_cancel₀ _ hshare_pos.ne']
  have halloc : (bottleneckStep w ideals s (activeWeight w ideals s) b m).alloc
      = fun i => if activePred ideals s i then
          s.alloc i + w i / activeWeight w ideals s * (s.remaining * m) else s.alloc i := by
    simp only [bottleneckStep]
    have hafb : (fun i => if activePred ideals s i then
        s.alloc i + w i / activeWeight w ideals s * (s.remaining * m) else s.alloc i) b
        = ideals b := by
      simp only [hbact, if_pos]
      rw [hb_exact]; ring
    rw [← hafb]
    exact Function.update_eq_self b _
  have hfro : (bottleneckStep w ideals s (activeWeight w ideals s) b m).frozen
      = Function.update s.frozen b true := rfl
  have hrem : (bottleneckStep w ideals s (activeWeight w ideals s) b m).remaining
      = s.remaining - s.remaining * m := rfl
  have hinc : ∀ i, activePred ideals s i = true →
      w i / activeWeight w ideals s * (s.remaining * m) ≤ ideals i - s.alloc i := by
    intro i hia
    have hsl_pos : 0 < ideals i - s.alloc i := by
      have := ((activePred_iff ideals s i).1 hia).2; linarith
    have heq : w i / activeWeight w ideals s * (s.remaining * m)
        = (w i / activeWeight w ideals s * s.remaining) * m := by ring
    by_cases hovi : ideals i - s.alloc i < w i / activeWeight w ideals s * s.remaining
    · have hmle := hB i (mem_actList.2 hia) hovi
      have hsh_pos : 0 < w i / activeWeight w ideals s * s.remaining :=
        lt_trans hsl_pos hovi
      have h2 : (w i / activeWeight w ideals s * s.remaining) *
          ((ideals i - s.alloc i) / (w i / activeWeight w ideals s * s.remaining))
          = ideals i - s.alloc i := by
        rw [mul_comm, div_mul_cancel₀ _ hsh_pos.ne']
      rw [heq, ← h2]
      exact mul_le_mul_of_nonneg_left hmle hsh_pos.le
    · push_neg at hovi
      rcases le_or_lt (w i / activeWeight w ideals s * s.remaining) 0 with hsh | hsh
      · rw [heq]; nlinarith
      · rw [heq]; nlinarith
  have hinc_nonneg : ∀ i, 0 ≤ w i / activeWeight w ideals s * (s.remaining * m) := by
    intro i
    exact mul_nonneg (div_nonneg (hw i) haw.le) (mul_nonneg hr.le hm_pos.le)
  refine ⟨?_, ?_, ?_, ?_, ?_, ?_, ?_⟩
  · intro i
    rw [halloc]
    by_cases hia : activePred ideals s i = true
    · simp only [hia, if_pos]
      linarith [hinc_nonneg i]
    · simp only [hia, if_neg, Bool.false_eq_true, ite_false]
      exact le_rfl
  · intro i
    rw [halloc]
    by_cases hia : activePred ideals s i = true
    · simp only [hia, if_pos]
      linarith [hinc i hia]
    · simp only [hia, if_neg, Bool.false_eq_true, ite_false]
      exact hub i
  · rw [hrem]; nlinarith
  · rw [halloc, hrem]
    rw [sum_univ_ite_add (activePred ideals s) s.alloc
        (fun i => w i / activeWeight w ideals s * (s.remaining * m)),
      list_sum_map_div_mul]
    rw [show (((List.finRange n).filter (activePred ideals s)).map w).sum
        = activeWeight w ideals s from rfl]
    rw [div_self haw.ne', one_mul]
    ring
  · intro i hfi
    rw [hfro]
    by_cases hib : i = b
    · subst hib; simp [Function.update_same]
    · rw [Function.update_noteq hib]; exact hfi
  · intro hP4 i hfi
    rw [halloc]
    rw [hfro] at hfi
    by_cases hib : i = b
    · subst hib
      simp only [hbact, if_pos]
      rw [hb_exact]; ring
    · rw [Function.update_noteq hib] at hfi
      have hinact : activePred ideals s i = false := by
        simp [activePred, hfi]
      simp only [hinact, Bool.false_eq_true, ite_false]
      exact hP4 i hfi
  · rw [hfro]
    refine Finset.card_lt_card ?_
    refine (Finset.ssubset_iff_of_subset ?_).2 ⟨b, ?_, ?_⟩
    · intro i hi
      simp only [Finset.mem_filter, Finset.mem_univ, true_and] at hi ⊢
      by_cases hib : i = b
      · subst hib; simp [Function.update_same] at hi
      · rwa [Function.update_noteq hib] at hi
    · simp [hb_frozen]
    · simp [Function.update_same]

/-- Classification of the three ways a water-filling iteration can break out
of the loop. The `distributeAll` exit additionally records that no active
agent's proportional share overflows its slack. -/
lemma wfIter_inl_classify {n : ℕ} (w ideals : Fin n → ℚ) (s : WFState n)
    (_hr : 0 < s.remaining) (a : Fin n → ℚ) (h : wfIter w ideals s = Sum.inl a) :
    (a = s.alloc ∧ (List.finRange n).filter (activePred ideals s) = []) ∨
    (a = degenerateResult ideals s ((List.finRange n).filter (activePred ideals s)).length ∧
      (List.finRange n).filter (activePred ideals s) ≠ [] ∧
      activeWeight w ideals s < 1 / 1000000000) ∨
    (a = distributeAll w ideals s (activeWeight w ideals s) ∧
      (List.finRange n).filter (activePred ideals s) ≠ [] ∧
      ¬ activeWeight w ideals s < 1 / 1000000000 ∧
      (∀ i, activePred ideals s i = true →
        ¬ (ideals i - s.alloc i < w i / activeWeight w ideals s * s.remaining))) := by
  unfold wfIter at h
  by_cases hemp : (List.finRange n).filter (activePred ideals s) = []
  · rw [if_pos hemp] at h
    exact Or.inl ⟨(Sum.inl.inj h).symm, hemp⟩
  · rw [if_neg hemp] at h
    by_cases hdeg : activeWeight w ideals s < 1 / 1000000000
    · rw [if_pos hdeg] at h
      exact Or.inr (Or.inl ⟨(Sum.inl.inj h).symm, hemp, hdeg⟩)
    · rw [if_neg hdeg] at h
      rcases hbn : bottleneck w ideals s.alloc (activeWeight w ideals s) s.remaining
          ((List.finRange n).filter (activePred ideals s)) none with _ | ⟨b, m⟩
      · rw [hbn] at h
        simp only at h
        obtain ⟨_, hnoov⟩ := bottleneck_none w ideals s.alloc (activeWeight w ideals s)
          s.remaining _ _ hbn
        exact Or.inr (Or.inr ⟨(Sum.inl.inj h).symm, hemp, hdeg,
          fun i hia => hnoov i (mem_actList.2 hia)⟩)
      · rw [hbn] at h
        simp only at h
        by_cases hm1 : m < 1
        · rw [if_pos hm1] at h
          exact absurd h (by simp)
        · exfalso
          obtain ⟨hA, _, _⟩ := bottleneck_some w ideals s.alloc (activeWeight w ideals s)
            s.remaining _ _ _ _ hbn
          rcases hA with hA | ⟨hbmem, hov, hmv⟩
          · exact absurd hA (by simp)
          · have hbact := mem_actList.1 hbmem
            have hb_lt : s.alloc b < ideals b := ((activePred_iff ideals s b).1 hbact).2
            have hslack : 0 < ideals b - s.alloc b := by linarith
            have hshare : 0 < w b / activeWeight w ideals s * s.remaining :=
              lt_trans hslack hov
            have : m < 1 := by
              rw [hmv]; exact (div_lt_one hshare).2 hov
            exact hm1 this

lemma wfIter_inl_spec {n : ℕ} (w ideals : Fin n → ℚ) (hw : ∀ i, 0 ≤ w i)
    (s : WFState n) (hr : 0 < s.remaining) (hub : ∀ i, s.alloc i ≤ ideals i)
    (a : Fin n → ℚ) (h : wfIter w ideals s = Sum.inl a) :
    (∀ i, s.alloc i ≤ a i) ∧ (∀ i, a i ≤ ideals i) ∧
      (∑ i, a i) ≤ (∑ i, s.alloc i) + s.remaining := by
  rcases wfIter_inl_classify w ideals s hr a h with ⟨rfl, _⟩ | ⟨rfl, hemp, _⟩ |
    ⟨rfl, hemp, hdeg, hnoov⟩
  · exact ⟨fun i => le_rfl, hub, by linarith⟩
  · exact degenerateResult_spec ideals s hr hub hemp
  · obtain ⟨h1, h2⟩ := distributeAll_bounds w ideals s hw hr hub (activeWeight_pos hdeg) hnoov
    exact ⟨h1, h2, le_of_eq (distributeAll_sum w ideals s (activeWeight_pos hdeg).ne')⟩

lemma wfIter_inr_spec {n : ℕ} (w ideals : Fin n → ℚ) (hw : ∀ i, 0 ≤ w i)
    (s : WFState n) (hr : 0 < s.remaining) (hub : ∀ i, s.alloc i ≤ ideals i)
    (s2 : WFState n) (h : wfIter w ideals s = Sum.inr s2) :
    (∀ i, s.alloc i ≤ s2.alloc i) ∧ (∀ i, s2.alloc i ≤ ideals i) ∧ 0 < s2.remaining ∧
      ((∑ i, s2.alloc i) + s2.remaining = (∑ i, s.alloc i) + s.remaining) ∧
      (∀ i, s.frozen i = true → s2.frozen i = true) ∧
      ((∀ i, s.frozen i = true → s.alloc i = ideals i) →
        ∀ i, s2.frozen i = true → s2.alloc i = ideals i) ∧
      (Finset.univ.filter (fun i => s2.frozen i = false)).card
        < (Finset.univ.filter (fun i => s.frozen i = false)).card := by
  unfold wfIter at h
  by_cases hemp : (List.finRange n).filter (activePred ideals s) = []
  · rw [if_pos hemp] at h
    exact absurd h (by simp)
  · rw [if_neg hemp] at h
    by_cases hdeg : activeWeight w ideals s < 1 / 1000000000
    · rw [if_pos hdeg] at h
      exact absurd h (by simp)
    · rw [if_neg hdeg] at h
      rcases hbn : bottleneck w ideals s.alloc (activeWeight w ideals s) s.remaining
          ((List.finRange n).filter (activePred ideals s)) none with _ | ⟨b, m⟩
      · rw [hbn] at h
        simp only at h
        exact absurd h (by simp)
      · rw [hbn] at h
        simp only at h
        by_cases hm1 : m < 1
        · rw [if_pos hm1] at h
          obtain rfl := Sum.inr.inj h
          exact bottleneckStep_spec w ideals hw s hr hub b m hdeg hbn hm1
        · rw [if_neg hm1] at h
          exact absurd h (by simp)

/-! ### Loop invariants -/

lemma wfLoop_spec {n : ℕ} (w ideals : Fin n → ℚ) (hw : ∀ i, 0 ≤ w i) :
    ∀ (fuel : ℕ) (s : WFState n), 0 < s.remaining → (∀ i, s.alloc i ≤ ideals i) →
      (∀ i, s.alloc i ≤ wfLoop w ideals fuel s i) ∧
      (∀ i, wfLoop w ideals fuel s i ≤ ideals i) ∧
      (∑ i, wfLoop w ideals fuel s i) ≤ (∑ i, s.alloc i) + s.remaining := by
  intro fuel
  induction fuel with
  | zero =>
    intro s hr hub
    simp only [wfLoop]
    exact ⟨fun i => le_rfl, hub, by linarith⟩
  | succ fuel ih =>
    intro s hr hub
    rcases hit : wfIter w ideals s with a | s2
    · have hl : wfLoop w ideals (fuel + 1) s = a := by
        simp only [wfLoop]; rw [hit]
      rw [hl]
      exact wfIter_inl_spec w ideals hw s hr hub a hit
    · have hl : wfLoop w ideals (fuel + 1) s = wfLoop w ideals fuel s2 := by
        simp only [wfLoop]; rw [hit]
      obtain ⟨m1, m2, m3, m4, _, _, _⟩ := wfIter_inr_spec w ideals hw s hr hub s2 hit
      obtain ⟨i1, i2, i3⟩ := ih s2 m3 m2
      rw [hl]
      exact ⟨fun i => (m1 i).trans (i1 i), i2, by linarith⟩

lemma wfLoop_dichotomy {n : ℕ} (w ideals : Fin n → ℚ) (hw9 : ∀ i, 1 / 1000000000 ≤ w i) :
    ∀ (fuel : ℕ) (s : WFState n), 0 < s.remaining → (∀ i, s.alloc i ≤ ideals i) →
      (∀ i, s.frozen i = true → s.alloc i = ideals i) →
      (Finset.univ.filter (fun i => s.frozen i = false)).card ≤ fuel →
      (∀ i, wfLoop w ideals fuel s i = ideals i) ∨
        (∑ i, wfLoop w ideals fuel s i) = (∑ i, s.alloc i) + s.remaining := by
  have hw : ∀ i, 0 ≤ w i := fun i => le_trans (by norm_num) (hw9 i)
  intro fuel
  induction fuel with
  | zero =>
    intro s hr hub hP4 hcard
    left
    intro i
    have hfz : s.frozen i = true := by
      by_contra hf
      have hione : i ∈ Finset.univ.filter (fun i => s.frozen i = false) := by
        simp only [Finset.mem_filter, Finset.mem_univ, true_and]
        exact Bool.not_eq_true _ ▸ hf
      have := Finset.card_pos.2 ⟨i, hione⟩
      omega
    simpa only [wfLoop] using hP4 i hfz
  | succ fuel ih =>
    intro s hr hub hP4 hcard
    rcases hit : wfIter w ideals s with a | s2
    · have hl : wfLoop w ideals (fuel + 1) s = a := by
        simp only [wfLoop]; rw [hit]
      rcases wfIter_inl_classify w ideals s hr a hit with ⟨rfl, hemp⟩ | ⟨rfl, hemp, hdeg⟩ |
        ⟨rfl, hemp, hdeg, _⟩
      · left
        intro i
        rw [hl]
        have hnact : ¬ activePred ideals s i = true := by
          intro hia
          have hmem : i ∈ (List.finRange n).filter (activePred ideals s) := mem_actList.2 hia
          rw [hemp] at hmem
          exact absurd hmem (List.not_mem_nil i)
        rw [activePred_iff] at hnact
        push_neg at hnact
        rcases hfz : s.frozen i with _ | _
        · have := hnact (by rw [hfz])
          exact le_antisymm (hub i) this
        · exact hP4 i hfz
      · exfalso
        obtain ⟨i, hi⟩ := List.exists_mem_of_ne_nil _ hemp
        have hle : w i ≤ activeWeight w ideals s := by
          unfold activeWeight
          refine List.single_le_sum ?_ (w i) (List.mem_map_of_mem w hi)
          intro x hx
          obtain ⟨j, _, rfl⟩ := List.mem_map.1 hx
          exact hw j
        linarith [hw9 i]
      · right
        rw [hl]
        exact distributeAll_sum w ideals s (activeWeight_pos hdeg).ne'
    · have hl : wfLoop w ideals (fuel + 1) s = wfLoop w ideals fuel s2 := by
        simp only [wfLoop]; rw [hit]
      obtain ⟨m1, m2, m3, m4, m5, m6, m7⟩ := wfIter_inr_spec w ideals hw s hr hub s2 hit
      have hcard2 : (Finset.univ.filter (fun i => s2.frozen i = false)).card ≤ fuel := by
        omega
      rcases ih s2 m3 m2 (m6 hP4) hcard2 with hL | hR
      · left; intro i; rw [hl]; exact hL i
      · right; rw [hl, hR]; linarith

lemma wfLoop_succ {n : ℕ} (w ideals : Fin n → ℚ) (fuel : ℕ) (s : WFState n) :
    wfLoop w ideals (fuel + 1) s
      = match wfIter w ideals s with
        | Sum.inl a => a
        | Sum.inr s2 => wfLoop w ideals fuel s2 := rfl

lemma wfLoop_succ_inl {n : ℕ} {w ideals : Fin n → ℚ} {s : WFState n} {a : Fin n → ℚ}
    (h : wfIter w ideals s = Sum.inl a) (fuel : ℕ) :
    wfLoop w ideals (fuel + 1) s = a := by
  rw [wfLoop_succ, h]

lemma wfLoop_succ_inr {n : ℕ} {w ideals : Fin n → ℚ} {s s2 : WFState n}
    (h : wfIter w ideals s = Sum.inr s2) (fuel : ℕ) :
    wfLoop w ideals (fuel + 1) s = wfLoop w ideals fuel s2 := by
  rw [wfLoop_succ, h]

lemma wfIter_of_no_active {n : ℕ} (w ideals : Fin n → ℚ) (s : WFState n)
    (h : ∀ i, activePred ideals s i = false) :
    wfIter w ideals s = Sum.inl s.alloc := by
  unfold wfIter
  rw [if_pos (List.filter_eq_nil_iff.2 fun i _ => by simp [h i])]

/-! ### Main properties of `water_filling` -/

/-- For nonnegative weights and consistent bounds, the returned allocation is
within `[mins, ideals]` and its total never exceeds the capacity. -/
lemma water_filling_valid {n : ℕ} (weights mins ideals : Fin n → ℚ) (capacity : ℚ)
    (hw : ∀ i, 0 ≤ weights i) (hmi : ∀ i, mins i ≤ ideals i)
    (hcap : (∑ i, mins i) ≤ capacity) :
    (∀ i, mins i ≤ water_filling weights mins ideals capacity i) ∧
    (∀ i, water_filling weights mins ideals capacity i ≤ ideals i) ∧
    (∑ i, water_filling weights mins ideals capacity i) ≤ capacity := by
  simp only [water_filling]
  by_cases hr : capacity - ∑ i, mins i ≤ 0
  · rw [if_pos hr]
    exact ⟨fun i => le_rfl, hmi, hcap⟩
  · rw [if_neg hr]
    push_neg at hr
    obtain ⟨l1, l2, l3⟩ := wfLoop_spec weights ideals hw 100
      ⟨mins, capacity - ∑ i, mins i, fun _ => false⟩ hr hmi
    refine ⟨fun i => le_max_left _ _, fun i => max_le (hmi i) (min_le_left _ _), ?_⟩
    have hres : ∀ i, max (mins i) (min (ideals i)
        (wfLoop weights ideals 100 ⟨mins, capacity - ∑ i, mins i, fun _ => false⟩ i))
        = wfLoop weights ideals 100 ⟨mins, capacity - ∑ i, mins i, fun _ => false⟩ i := by
      intro i
      rw [min_eq_right (l2 i), max_eq_right (l1 i)]
    calc (∑ i, max (mins i) (min (ideals i)
          (wfLoop weights ideals 100 ⟨mins, capacity - ∑ i, mins i, fun _ => false⟩ i)))
        = ∑ i, wfLoop weights ideals 100 ⟨mins, capacity - ∑ i, mins i, fun _ => false⟩ i :=
          Finset.sum_congr rfl fun i _ => hres i
      _ ≤ (∑ i, mins i) + (capacity - ∑ i, mins i) := l3
      _ = capacity := by ring

/-- With at most 100 agents and all weights at least `1e-9`, water-filling
terminates either with the capacity exhausted or with every agent at its
ideal. -/
lemma water_filling_dichotomy {n : ℕ} (weights mins ideals : Fin n → ℚ) (capacity : ℚ)
    (hn : n ≤ 100) (hw9 : ∀ i, 1 / 1000000000 ≤ weights i)
    (hmi : ∀ i, mins i ≤ ideals i) (hcap : (∑ i, mins i) ≤ capacity) :
    (∑ i, water_filling weights mins ideals capacity i) = capacity ∨
      (∀ i, water_filling weights mins ideals capacity i = ideals i) := by
  have hw : ∀ i, 0 ≤ weights i := fun i => le_trans (by norm_num) (hw9 i)
  simp only [water_filling]
  by_cases hr : capacity - ∑ i, mins i ≤ 0
  · rw [if_pos hr]
    left
    exact (le_antisymm (by linarith) hcap).symm
  · rw [if_neg hr]
    push_neg at hr
    have hcard : (Finset.univ.filter
        (fun i : Fin n => (⟨mins, capacity - ∑ i, mins i, fun _ => false⟩ :
          WFState n).frozen i = false)).card ≤ 100 := by
      calc _ ≤ (Finset.univ : Finset (Fin n)).card := Finset.card_filter_le _ _
        _ = n := by simp
        _ ≤ 100 := hn
    obtain ⟨l1, l2, _⟩ := wfLoop_spec weights ideals hw 100
      ⟨mins, capacity - ∑ i, mins i, fun _ => false⟩ hr hmi
    rcases wfLoop_dichotomy weights ideals hw9 100
        ⟨mins, capacity - ∑ i, mins i, fun _ => false⟩ hr hmi
        (fun i hfi => absurd hfi (by simp)) hcard with hL | hR
    · right
      intro i
      rw [hL i, min_self, max_eq_right (hmi i)]
    · left
      calc (∑ i, max (mins i) (min (ideals i)
            (wfLoop weights ideals 100 ⟨mins, capacity - ∑ i, mins i, fun _ => false⟩ i)))
          = ∑ i, wfLoop weights ideals 100 ⟨mins, capacity - ∑ i, mins i, fun _ => false⟩ i := by
            refine Finset.sum_congr rfl fun i _ => ?_
            rw [min_eq_right (l2 i), max_eq_right (l1 i)]
        _ = (∑ i, mins i) + (capacity - ∑ i, mins i) := hR
        _ = capacity := by ring

lemma clamp_arith (m ι cap : ℚ) (hmi : m ≤ ι) (hmc : m ≤ cap) :
    max m (min ι (m + min (cap - m) (ι - m))) = min ι cap := by
  rcases le_total cap ι with h | h
  · rw [show min (cap - m) (ι - m) = cap - m from min_eq_left (by linarith),
      show m + (cap - m) = cap by ring, min_eq_right h, max_eq_right hmc]
  · rw [show min (cap - m) (ι - m) = ι - m from min_eq_right (by linarith),
      show m + (ι - m) = ι by ring, min_self, max_eq_right hmi, min_eq_left h]

/-- A single-agent run of water-filling with valid bounds
(`min ≤ ideal`, `min ≤ capacity`) allocates `min(ideal, capacity)`;
the priority weight is arbitrary. -/
lemma water_filling_single (w m ι cap : ℚ) (hmi : m ≤ ι) (hmc : m ≤ cap) :
    water_filling (fun _ : Fin 1 => w) (fun _ => m) (fun _ => ι) cap 0 = min ι cap := by
  simp only [water_filling, Fin.sum_univ_one]
  by_cases hr : cap - m ≤ 0
  · rw [if_pos hr]
    have hcm : cap = m := le_antisymm (by linarith) hmc
    show m = min ι cap
    rw [hcm]
    exact (min_eq_right hmi).symm
  · rw [if_neg hr]
    push_neg at hr
    by_cases hlt : m < ι
    · have hact0 : activePred (fun _ => ι)
          (⟨fun _ => m, cap - m, fun _ => false⟩ : WFState 1) 0 = true := by
        simp [activePred, hlt]
      have hact : (List.finRange 1).filter (activePred (fun _ => ι)
          (⟨fun _ => m, cap - m, fun _ => false⟩ : WFState 1)) = [0] := by
        have h1 : List.finRange 1 = [0] := by decide
        rw [h1, List.filter_cons, List.filter_nil]
        simp [hact0]
      have haw : activeWeight (fun _ => w) (fun _ => ι)
          (⟨fun _ => m, cap - m, fun _ => false⟩ : WFState 1) = w := by
        simp [activeWeight, hact]
      by_cases hdeg : w < 1 / 1000000000
      · -- degenerate branch: equal split capped at the slack
        have hit : wfIter (fun _ : Fin 1 => w) (fun _ => ι)
            (⟨fun _ => m, cap - m, fun _ => false⟩ : WFState 1)
            = Sum.inl (degenerateResult (fun _ => ι)
                (⟨fun _ => m, cap - m, fun _ => false⟩ : WFState 1)
                (((List.finRange 1).filter (activePred (fun _ => ι)
                  (⟨fun _ => m, cap - m, fun _ => false⟩ : WFState 1))).length)) := by
          unfold wfIter
          rw [haw, if_neg (by rw [hact]; simp), if_pos hdeg]
        rw [show (100 : ℕ) = 99 + 1 by norm_num, wfLoop_succ_inl hit, hact]
        show max m (min ι (degenerateResult (fun _ => ι)
            (⟨fun _ => m, cap - m, fun _ => false⟩ : WFState 1) [(0 : Fin 1)].length 0))
            = min ι cap
        simp only [degenerateResult, hact0, if_pos, List.length_cons, List.length_nil,
          ite_true, Nat.zero_add, Nat.cast_one, div_one]
        exact clamp_arith m ι cap hmi hmc
      · -- non-degenerate: use the validity and dichotomy lemmas at n = 1
        have hw9 : ∀ i : Fin 1, 1 / 1000000000 ≤ (fun _ : Fin 1 => w) i := by
          intro i
          exact not_lt.1 hdeg
        have hw0 : ∀ i : Fin 1, 0 ≤ (fun _ : Fin 1 => w) i := by
          intro i
          have := not_lt.1 hdeg
          norm_num at this ⊢
          linarith
        have hval := water_filling_valid (fun _ : Fin 1 => w) (fun _ => m) (fun _ => ι) cap
          hw0 (fun _ => hmi) (by simpa using hmc)
        have hdich := water_filling_dichotomy (fun _ : Fin 1 => w) (fun _ => m) (fun _ => ι)
          cap (by norm_num) hw9 (fun _ => hmi) (by simpa using hmc)
        obtain ⟨hv1, hv2, hv3⟩ := hval
        rw [Fin.sum_univ_one] at hv3
        have hgoal : water_filling (fun _ : Fin 1 => w) (fun _ => m) (fun _ => ι) cap 0
            = min ι cap := by
          rcases hdich with hc | hι
          · have hc0 : water_filling (fun _ : Fin 1 => w) (fun _ => m) (fun _ => ι) cap 0
                = cap := by
              rw [Fin.sum_univ_one] at hc
              exact hc
            have hcι : cap ≤ ι := by
              rw [← hc0]
              exact hv2 0
            rw [hc0, min_eq_right hcι]
          · have hι0 : water_filling (fun _ : Fin 1 => w) (fun _ => m) (fun _ => ι) cap 0
                = ι := hι 0
            have hιc : ι ≤ cap := by
              rw [← hι0]
              exact hv3
            rw [hι0, min_eq_left hιc]
        simpa only [water_filling, Fin.sum_univ_one, if_neg (not_le.2 hr)] using hgoal
    · -- m = ι: no agent is active, the loop exits immediately
      have hmeq : m = ι := le_antisymm hmi (not_lt.1 hlt)
      have hit : wfIter (fun _ : Fin 1 => w) (fun _ => ι)
          (⟨fun _ => m, cap - m, fun _ => false⟩ : WFState 1)
          = Sum.inl ((⟨fun _ => m, cap - m, fun _ => false⟩ : WFState 1).alloc) :=
        wfIter_of_no_active _ _ _ (fun i => by simp [activePred, hlt])
      rw [show (100 : ℕ) = 99 + 1 by norm_num, wfLoop_succ_inl hit]
      show max m (min ι m) = min ι cap
      rw [min_eq_right hmi, max_self, hmeq, min_eq_left (by linarith)]

/-- In every iteration with equal priority weights (bounded away from the
degenerate branch), all active agents receive exactly the same increment. -/
lemma wfIter_equal_split {n : ℕ} (w ideals : Fin n → ℚ) (s : WFState n) (w0 : ℚ)
    (hweq : ∀ i, w i = w0) (hw9 : (1 : ℚ) / 1000000000 ≤ w0)
    (i k : Fin n) (hi : activePred ideals s i = true) (hk : activePred ideals s k = true) :
    wfIterAlloc (wfIter w ideals s) i - s.alloc i
      = wfIterAlloc (wfIter w ideals s) k - s.alloc k := by
  have hact_ne : (List.finRange n).filter (activePred ideals s) ≠ [] := by
    intro h0
    have hmem := mem_actList.2 hi
    rw [h0] at hmem
    exact absurd hmem (List.not_mem_nil i)
  have hw : ∀ j, 0 ≤ w j := by
    intro j
    rw [hweq j]
    have : (0 : ℚ) < 1 / 1000000000 := by norm_num
    linarith
  have hawge : w0 ≤ activeWeight w ideals s := by
    obtain ⟨j, hj⟩ := List.exists_mem_of_ne_nil _ hact_ne
    have hle : w j ≤ activeWeight w ideals s := by
      unfold activeWeight
      refine List.single_le_sum ?_ (w j) (List.mem_map_of_mem w hj)
      intro x hx
      obtain ⟨j2, _, rfl⟩ := List.mem_map.1 hx
      exact hw j2
    rw [hweq j] at hle
    exact hle
  have hdeg : ¬ activeWeight w ideals s < 1 / 1000000000 := not_lt.2 (le_trans hw9 hawge)
  have haw : 0 < activeWeight w ideals s := activeWeight_pos hdeg
  rcases hbn : bottleneck w ideals s.alloc (activeWeight w ideals s) s.remaining
      ((List.finRange n).filter (activePred ideals s)) none with _ | ⟨b, m⟩
  · have hit : wfIter w ideals s
        = Sum.inl (distributeAll w ideals s (activeWeight w ideals s)) := by
      unfold wfIter
      rw [if_neg hact_ne, if_neg hdeg, hbn]
    rw [hit]
    simp only [wfIterAlloc, distributeAll, hi, hk, ite_true]
    rw [hweq i, hweq k]
    ring
  · obtain ⟨hA, hB, _⟩ := bottleneck_some w ideals s.alloc (activeWeight w ideals s)
      s.remaining _ _ _ _ hbn
    rcases hA with hA | ⟨hbmem, hov, hmv⟩
    · exact absurd hA (by simp)
    have hbact : activePred ideals s b = true := mem_actList.1 hbmem
    have hb_lt : s.alloc b < ideals b := ((activePred_iff ideals s b).1 hbact).2
    have hslack : 0 < ideals b - s.alloc b := by linarith
    have hshare : 0 < w b / activeWeight w ideals s * s.remaining := lt_trans hslack hov
    have hm1 : m < 1 := by
      rw [hmv]
      exact (div_lt_one hshare).2 hov
    have hit : wfIter w ideals s
        = Sum.inr (bottleneckStep w ideals s (activeWeight w ideals s) b m) := by
      unfold wfIter
      rw [if_neg hact_ne, if_neg hdeg, hbn]
      show (if m < 1 then
          Sum.inr (bottleneckStep w ideals s (activeWeight w ideals s) b m)
        else Sum.inl (distributeAll w ideals s (activeWeight w ideals s)))
          = Sum.inr (bottleneckStep w ideals s (activeWeight w ideals s) b m)
      rw [if_pos hm1]
    rw [hit]
    simp only [wfIterAlloc]
    have hb_exact : w b / activeWeight w ideals s * (s.remaining * m)
        = ideals b - s.alloc b := by
      have h1 : w b / activeWeight w ideals s * (s.remaining * m)
          = (w b / activeWeight w ideals s * s.remaining) * m := by ring
      rw [h1, hmv, mul_comm, div_mul_cancel₀ _ hshare.ne']
    have key : ∀ j, activePred ideals s j = true →
        (bottleneckStep w ideals s (activeWeight w ideals s) b m).alloc j
          = s.alloc j + w0 / activeWeight w ideals s * (s.remaining * m) := by
      intro j hj
      simp only [bottleneckStep]
      by_cases hjb : j = b
      · subst hjb
        rw [Function.update_same, ← hweq j]
        linarith [hb_exact]
      · rw [Function.update_noteq hjb]
        simp only [hj, ite_true]
        rw [hweq j]
    rw [key i hi, key k hk]
    ring

/-! ### Closed forms for the loss-aversion accumulation loops -/

lemma softplus_foldl_sum (names : List String) (a : List ℚ)
    (reference_points : List (String × ℚ)) (lambda tau : ℚ) :
    ∀ (l : List (String × ℚ)) (s0 : ℝ),
      l.foldl (fun utility p =>
        match resToIdxLast names p.1 with
        | none => utility
        | some j =>
          let x : ℚ := allocAt a j - lookupRef reference_points p.1
          let g : ℝ :=
            if 20 < x / tau then (x : ℝ)
            else if x / tau < -20 then (lambda : ℝ) * (x : ℝ)
            else (x : ℝ) - ((lambda : ℝ) - 1) * (tau : ℝ)
              * Real.log (1 + Real.exp (-((x : ℝ) / (tau : ℝ))))
          utility + (p.2 : ℝ) * g) s0
      = s0 + (l.map (fun p =>
          match resToIdxLast names p.1 with
          | none => (0 : ℝ)
          | some j =>
            let x : ℚ := allocAt a j - lookupRef reference_points p.1
            (p.2 : ℝ) *
              (if 20 < x / tau then (x : ℝ)
               else if x / tau < -20 then (lambda : ℝ) * (x : ℝ)
               else (x : ℝ) - ((lambda : ℝ) - 1) * (tau : ℝ)
                 * Real.log (1 + Real.exp (-((x : ℝ) / (tau : ℝ))))))).sum := by
  intro l
  induction l with
  | nil => intro s0; simp
  | cons p l ih =>
    intro s0
    rcases hf : resToIdxLast names p.1 with _ | j
    · simp only [List.foldl_cons, List.map_cons, List.sum_cons, hf]
      rw [ih]
      ring
    · simp only [List.foldl_cons, List.map_cons, List.sum_cons, hf]
      rw [ih]
      ring

lemma asym_foldl_sum (names : List String) (a : List ℚ)
    (reference_points : List (String × ℚ)) (lambda kappa : ℚ) :
    ∀ (l : List (String × ℚ)) (s0 : ℝ),
      l.foldl (fun utility p =>
        match resToIdxLast names p.1 with
        | none => utility
        | some j =>
          let x : ℚ := allocAt a j - lookupRef reference_points p.1
          let g : ℝ :=
            if 0 ≤ x then Real.log (1 + (x : ℝ) / ((max epsilon kappa : ℚ) : ℝ))
            else -((max 1 lambda : ℚ) : ℝ)
              * Real.log (1 + ((|x| : ℚ) : ℝ) / ((max epsilon kappa : ℚ) : ℝ))
          utility + (p.2 : ℝ) * g) s0
      = s0 + (l.map (fun p =>
          match resToIdxLast names p.1 with
          | none => (0 : ℝ)
          | some j =>
            let x : ℚ := allocAt a j - lookupRef reference_points p.1
            (p.2 : ℝ) *
              (if 0 ≤ x then Real.log (1 + (x : ℝ) / ((max epsilon kappa : ℚ) : ℝ))
               else -((max 1 lambda : ℚ) : ℝ)
                 * Real.log (1 + ((|x| : ℚ) : ℝ) / ((max epsilon kappa : ℚ) : ℝ))))).sum := by
  intro l
  induction l with
  | nil => intro s0; simp
  | cons p l ih =>
    intro s0
    rcases hf : resToIdxLast names p.1 with _ | j
    · simp only [List.foldl_cons, List.map_cons, List.sum_cons, hf]
      rw [ih]
      ring
    · simp only [List.foldl_cons, List.map_cons, List.sum_cons, hf]
      rw [ih]
      ring

/-! ### Claim theorems -/

/-- C1: for every valid input to the sequential fallback path — minimums
elementwise at most the ideals, per-resource minimum totals at most the
capacity, and nonnegative priority weights (the data model requires
`c_i > 0`) — the returned allocation matrix satisfies
`min i j ≤ A i j ≤ ideal i j` for every agent and resource and
`Σ_i A i j ≤ Q j` for every resource; in exact arithmetic no tolerance is
needed. -/
theorem C1_fallback_allocations_valid {n m : ℕ} (d : ProblemData n m)
    (hc : ∀ i, 0 ≤ d.priority_weights i)
    (hmi : ∀ i j, d.minimums i j ≤ d.ideals i j)
    (hcap : ∀ j, (∑ i, d.minimums i j) ≤ d.capacities j) :
    (∀ i j, d.minimums i j ≤ (solve_sequential_fallback d).allocations i j
      ∧ (solve_sequential_fallback d).allocations i j ≤ d.ideals i j)
    ∧ (∀ j, (∑ i, (solve_sequential_fallback d).allocations i j) ≤ d.capacities j) := by
  have halloc : (solve_sequential_fallback d).allocations = fallbackAllocations d := rfl
  rw [halloc]
  constructor
  · intro i j
    obtain ⟨h1, h2, _⟩ := water_filling_valid d.priority_weights
      (fun i2 => d.minimums i2 j) (fun i2 => d.ideals i2 j) (d.capacities j)
      hc (fun i2 => hmi i2 j) (hcap j)
    exact ⟨h1 i, h2 i⟩
  · intro j
    obtain ⟨_, _, h3⟩ := water_filling_valid d.priority_weights
      (fun i2 => d.minimums i2 j) (fun i2 => d.ideals i2 j) (d.capacities j)
      hc (fun i2 => hmi i2 j) (hcap j)
    exact h3

theorem C1_fallback_allocations_valid_witness :
    (∀ i j, C1data.minimums i j ≤ (solve_sequential_fallback C1data).allocations i j
      ∧ (solve_sequential_fallback C1data).allocations i j ≤ C1data.ideals i j)
    ∧ (∀ j, (∑ i, (solve_sequential_fallback C1data).allocations i j)
        ≤ C1data.capacities j) :=
  C1_fallback_allocations_valid C1data (by with_unfolding_all decide) (by with_unfolding_all decide) (by with_unfolding_all decide)

/-- C2 (amended): the solver never rescales a minimums column. When every
resource's minimum totals are within capacity, the solve proceeds on the
minimums clamped elementwise to the ideals (`mins = np.minimum(mins, ideals)`)
— their column sums are not scaled by `Q j / Σ_i mins i j`; when some
resource's totals exceed capacity, the solver returns infeasible instead of
repairing (see the counterexample). -/
theorem C2_precheck_no_scaling {n m : ℕ} (d : ProblemData n m)
    (h : ∀ j, minTotals d.minimums j ≤ d.capacities j) :
    solve_joint_precheck d
      = .proceed (fun i j => min (d.minimums i j) (d.ideals i j)) := by
  unfold solve_joint_precheck
  have hfi : firstInfeasible d.minimums d.capacities = none := by
    unfold firstInfeasible
    rw [List.find?_eq_none]
    intro j _
    simp only [decide_eq_true_eq, not_lt]
    exact h j
  rw [hfi]

theorem C2_precheck_no_scaling_witness :
    solve_joint_precheck C1data
      = .proceed (fun i j => min (C1data.minimums i j) (C1data.ideals i j)) :=
  C2_precheck_no_scaling C1data (by with_unfolding_all decide)

/-- C2 counterexample: minimums `[[4],[4]]` against capacity `[6]` would,
per the claim, be scaled by `6/8` and the solve would proceed; the code
instead returns an infeasible outcome and never proceeds. -/
theorem C2_precheck_no_scaling_cex :
    C2data.capacities 0 < minTotals C2data.minimums 0
    ∧ (solve_joint_precheck C2data).isProceed = false :=
  ⟨by with_unfolding_all decide, by with_unfolding_all decide⟩

/-- C3 (amended): whenever the feasibility check fails at resource `j` (the
first offending index), the solver returns status `"infeasible"`,
allocations equal to the raw minimums matrix, objective `-inf` (modelled as
`⊥`), solver `"none"`, and a diagnostic naming the resource index together
with the SUM of minimums and the capacity — not the shortfall itself: for
minimums `[[6],[6]]` and capacity `[10]` the diagnostic carries 0, 12 and
10, and the shortfall 2 appears nowhere (see the counterexample). -/
theorem C3_infeasible_result {n m : ℕ} (d : ProblemData n m) (j : Fin m)
    (h : firstInfeasible d.minimums d.capacities = some j) :
    solve_joint_precheck d = .infeasible "infeasible"
      ⟨(j : ℕ), minTotals d.minimums j, d.capacities j⟩ d.minimums ⊥ "none" := by
  unfold solve_joint_precheck
  rw [h]

theorem C3_infeasible_result_witness :
    solve_joint_precheck C3data = .infeasible "infeasible"
      ⟨((0 : Fin 1) : ℕ), minTotals C3data.minimums 0, C3data.capacities 0⟩
      C3data.minimums ⊥ "none" :=
  C3_infeasible_result C3data 0 (by with_unfolding_all decide)

/-- C3 counterexample: for minimums `[[6],[6]]` and capacity `[10]` the
diagnostic's numeric fields are the sum 12 and the capacity 10; neither is
the shortfall 2 required by the claim. -/
theorem C3_infeasible_result_cex :
    solve_joint_precheck C3data
      = .infeasible "infeasible" ⟨0, 12, 10⟩ C3data.minimums ⊥ "none"
    ∧ (12 : ℚ) ≠ 2 ∧ (10 : ℚ) ≠ 2 :=
  ⟨by with_unfolding_all rfl, by norm_num, by norm_num⟩

/-- C5 (amended): water-filling is idempotent provided every priority weight
is at least `1e-9` — below that threshold the degenerate equal-split branch
caps additions at individual slacks, leaves capacity unused and is NOT
idempotent (see the counterexample) — and there are at most 100 agents (the
loop's iteration cap). -/
theorem C5_water_filling_idempotent {n : ℕ} (weights mins ideals : Fin n → ℚ)
    (capacity : ℚ) (hn : n ≤ 100) (hw9 : ∀ i, 1 / 1000000000 ≤ weights i)
    (hmi : ∀ i, mins i ≤ ideals i) (hcap : (∑ i, mins i) ≤ capacity) :
    water_filling weights (water_filling weights mins ideals capacity) ideals capacity
      = water_filling weights mins ideals capacity := by
  have hw : ∀ i, 0 ≤ weights i := fun i => le_trans (by norm_num) (hw9 i)
  obtain ⟨hv1, hv2, hv3⟩ := water_filling_valid weights mins ideals capacity hw hmi hcap
  set R := water_filling weights mins ideals capacity with hR
  rcases water_filling_dichotomy weights mins ideals capacity hn hw9 hmi hcap with hc | hι
  · -- capacity exactly exhausted: the second run returns its minimums at once
    show water_filling weights R ideals capacity = R
    simp only [water_filling]
    rw [if_pos (by rw [hc]; norm_num)]
  · -- everybody at the ideal: the second run has no active agent
    have hι2 : ∀ i, R i = ideals i := fun i => hι i
    show water_filling weights R ideals capacity = R
    simp only [water_filling]
    by_cases hr2 : capacity - ∑ i, R i ≤ 0
    · rw [if_pos hr2]
    · rw [if_neg hr2]
      have hit : wfIter weights ideals ⟨R, capacity - ∑ i, R i, fun _ => false⟩
          = Sum.inl R := by
        refine wfIter_of_no_active _ _ _ (fun i => ?_)
        simp [activePred, hι2 i]
      rw [show (100 : ℕ) = 99 + 1 by norm_num, wfLoop_succ_inl hit]
      funext i
      rw [min_eq_right (hv2 i), max_self]

theorem C5_water_filling_idempotent_witness :
    water_filling (n := 2) (fun _ => 1)
        (water_filling (fun _ => 1) ![0, 0] ![3, 10] 10) ![3, 10] 10
      = water_filling (fun _ => 1) ![0, 0] ![3, 10] 10 :=
  C5_water_filling_idempotent (fun _ => 1) ![0, 0] ![3, 10] 10
    (by norm_num) (by with_unfolding_all decide) (by with_unfolding_all decide) (by with_unfolding_all decide)

/-- C5 counterexample: with zero weights (degenerate branch), water-filling
on minimums `[0,0]`, ideals `[3,10]`, capacity `10` yields `[3,5]`, and
re-running it on `[3,5]` yields `[3,7]` — not idempotent. -/
theorem C5_water_filling_idempotent_cex :
    water_filling (n := 2) ![0, 0] (water_filling ![0, 0] ![0, 0] ![3, 10] 10) ![3, 10] 10
      ≠ water_filling ![0, 0] ![0, 0] ![3, 10] 10 := by
  with_unfolding_all decide

/-- C6 (amended): for a single agent (`n = 1`) with any weight but VALID
bounds `min ≤ ideal` and `min ≤ capacity`, water-filling allocates
`min(ideal, capacity)`; without `min ≤ capacity` the early `remaining <= 0`
return yields the minimum itself (see the counterexample). -/
theorem C6_single_agent (w m ι cap : ℚ) (hmi : m ≤ ι) (hmc : m ≤ cap) :
    water_filling (fun _ : Fin 1 => w) (fun _ => m) (fun _ => ι) cap 0 = min ι cap :=
  water_filling_single w m ι cap hmi hmc

theorem C6_single_agent_witness :
    water_filling (fun _ : Fin 1 => 1) (fun _ => 5) (fun _ => 10) 7 0 = min (10 : ℚ) 7 :=
  C6_single_agent 1 5 10 7 (by norm_num) (by norm_num)

/-- C6 counterexample: with minimum 5 above capacity 3, the single agent
receives 5, not `min(10, 3) = 3`. -/
theorem C6_single_agent_cex :
    water_filling (fun _ : Fin 1 => 1) (fun _ => 5) (fun _ => 10) 3 0 ≠ min (10 : ℚ) 3 := by
  with_unfolding_all decide

/-- C7 (amended): with equal priority weights of at least `1e-9` (below that
the degenerate branch caps increments at individual slacks and the split is
unequal — see the counterexample) and equal ideal bounds, every iteration of
water-filling gives all active agents exactly the same increment; and the
end-to-end fallback scenario (`n=2, m=1`, unit preferences/priorities,
capacity 10, zero minimums, ideals 10, all-Linear) yields allocations
`[[5],[5]]`. -/
theorem C7_equal_split :
    (∀ (n : ℕ) (w ideals : Fin n → ℚ) (s : WFState n) (w0 ι0 : ℚ),
      (∀ i, w i = w0) → (1 : ℚ) / 1000000000 ≤ w0 → (∀ i, ideals i = ι0) →
      ∀ i k, activePred ideals s i = true → activePred ideals s k = true →
        wfIterAlloc (wfIter w ideals s) i - s.alloc i
          = wfIterAlloc (wfIter w ideals s) k - s.alloc k)
    ∧ (solve_sequential_fallback C7data).allocations = fun _ _ => (5 : ℚ) := by
  constructor
  · intro n w ideals s w0 ι0 hweq hw9 _ i k hi hk
    exact wfIter_equal_split w ideals s w0 hweq hw9 i k hi hk
  · show fallbackAllocations C7data = fun _ _ => (5 : ℚ)
    with_unfolding_all decide

theorem C7_equal_split_witness :
    wfIterAlloc (wfIter (fun _ : Fin 2 => (1 : ℚ)) (fun _ => 10)
        ⟨fun _ => 0, 10, fun _ => false⟩) 0
      - (⟨fun _ => 0, 10, fun _ => false⟩ : WFState 2).alloc 0
    = wfIterAlloc (wfIter (fun _ : Fin 2 => (1 : ℚ)) (fun _ => 10)
        ⟨fun _ => 0, 10, fun _ => false⟩) 1
      - (⟨fun _ => 0, 10, fun _ => false⟩ : WFState 2).alloc 1 :=
  C7_equal_split.1 2 (fun _ => 1) (fun _ => 10) ⟨fun _ => 0, 10, fun _ => false⟩ 1 10
    (fun _ => rfl) (by norm_num) (fun _ => rfl) 0 1 (by with_unfolding_all decide) (by with_unfolding_all decide)

/-- C7 counterexample: equal tiny weights `1e-10` trigger the degenerate
branch, whose slack caps split the remaining capacity 0.6 unequally between
the two active agents (increments 0.1 and 0.3) even though weights and
ideals are uniform. -/
theorem C7_equal_split_cex :
    water_filling (n := 2) (fun _ => 1 / 10000000000) ![99 / 10, 0] (fun _ => 10) (21 / 2) 0
        - (99 / 10 : ℚ)
      ≠ water_filling (n := 2) (fun _ => 1 / 10000000000) ![99 / 10, 0] (fun _ => 10) (21 / 2) 1
        - 0 := by
  with_unfolding_all decide

/-- C10 (amended): the sequential fallback performs no feasibility check.
For every resource `j` whose minimum totals exceed its capacity,
`water_filling` returns that minimums column unchanged (the `remaining <= 0`
early return), and `solve_sequential_fallback` still reports status
`"sequential_fallback"` with no error while resource `j`'s capacity
constraint is violated; only the offending columns equal the minimums — a
feasible column is still water-filled, so the whole allocation matrix need
not equal the minimums matrix (see the counterexample). -/
theorem C10_fallback_no_feasibility_check {n m : ℕ} (d : ProblemData n m) (j : Fin m)
    (h : d.capacities j < ∑ i, d.minimums i j) :
    (solve_sequential_fallback d).status = "sequential_fallback"
    ∧ (solve_sequential_fallback d).error = none
    ∧ (∀ i, (solve_sequential_fallback d).allocations i j = d.minimums i j)
    ∧ d.capacities j < ∑ i, (solve_sequential_fallback d).allocations i j := by
  have hcol : ∀ i, (solve_sequential_fallback d).allocations i j = d.minimums i j := by
    intro i
    show fallbackAllocations d i j = d.minimums i j
    simp only [fallbackAllocations, water_filling]
    rw [if_pos (by linarith)]
  refine ⟨rfl, rfl, hcol, ?_⟩
  calc d.capacities j < ∑ i, d.minimums i j := h
    _ = ∑ i, (solve_sequential_fallback d).allocations i j :=
      Finset.sum_congr rfl fun i _ => (hcol i).symm

theorem C10_fallback_no_feasibility_check_witness :
    (solve_sequential_fallback C10data).status = "sequential_fallback"
    ∧ (solve_sequential_fallback C10data).error = none
    ∧ (∀ i, (solve_sequential_fallback C10data).allocations i 0 = C10data.minimums i 0)
    ∧ C10data.capacities 0 < ∑ i, (solve_sequential_fallback C10data).allocations i 0 :=
  C10_fallback_no_feasibility_check C10data 0 (by with_unfolding_all decide)

/-- C10 counterexample (to the claim as stated): resource 0 is infeasible
(minimum 5 > capacity 3) but resource 1 has slack, so the returned
allocation matrix `[[5, 10]]` is NOT the minimums matrix `[[5, 0]]`. -/
theorem C10_fallback_no_feasibility_check_cex :
    C10data.capacities 0 < (∑ i, C10data.minimums i 0)
    ∧ (solve_sequential_fallback C10data).allocations ≠ C10data.minimums :=
  ⟨by with_unfolding_all decide, by with_unfolding_all decide⟩

/-- C4 (amended): both finished-allocation paths recompute each agent's
utility with the exact evaluator `eval_utility_np` on the FINAL allocation
matrix (never the optimizer's auxiliary variable), but the flooring differs:
the backend path reports `welfare = Σ c_i · log(max(Φ_i, 1e-6))` while the
water-filling fallback reports `welfare = Σ c_i · log(Φ_i + 1e-8)` — the
epsilon is added inside the log, not used as a floor (see counterexample). -/
theorem C4_welfare_recomputed {n m : ℕ} (d : ProblemData n m)
    (Astar : Fin n → Fin m → ℚ) (objectiveValue : ℝ) (usedSolver : String) :
    (synthesizeOptimal d Astar objectiveValue usedSolver).welfare
      = (∑ i, (d.priority_weights i : ℝ) * Real.log (max
          (eval_utility_np (matRow d.preferences i)
            (matRow (synthesizeOptimal d Astar objectiveValue usedSolver).allocations i)
            (d.utility_configs i) (some d.resource_names)) ((epsilon : ℚ) : ℝ)))
    ∧ (solve_sequential_fallback d).welfare
      = (∑ i, (d.priority_weights i : ℝ) * Real.log
          (eval_utility_np (matRow d.preferences i)
            (matRow (solve_sequential_fallback d).allocations i)
            (d.utility_configs i) (some d.resource_names) + 1 / 100000000)) :=
  ⟨rfl, rfl⟩

/-- C4 counterexample: on the fallback path the reported welfare is
`log(Φ + 1e-8)`, not `log(max(ε, Φ))`: in the single-agent scenario the
recomputed utility is `Φ = 10` and the code reports `log(10 + 1e-8)`, which
differs from the claimed `log(max(ε, 10)) = log 10`. -/
theorem C4_welfare_cex :
    (solve_sequential_fallback C4data).welfare
      ≠ ∑ i, (C4data.priority_weights i : ℝ) *
          Real.log (max ((solve_sequential_fallback C4data).utilities i)
            ((epsilon : ℚ) : ℝ)) := by
  have hrowp : matRow C4data.preferences 0 = [1] := by
    simp [matRow, List.ofFn_succ, List.ofFn_zero, C4data]
  have halloc : fallbackAllocations C4data 0 0 = 10 := by with_unfolding_all decide
  have hrowa : matRow (fallbackAllocations C4data) 0 = [10] := by
    simp [matRow, List.ofFn_succ, List.ofFn_zero, halloc]
  have hu : (solve_sequential_fallback C4data).utilities 0 = ((10 : ℚ) : ℝ) := by
    show eval_utility_np (matRow C4data.preferences 0) (matRow (fallbackAllocations C4data) 0)
        (C4data.utility_configs 0) (some C4data.resource_names) = ((10 : ℚ) : ℝ)
    rw [hrowp, hrowa]
    show ((eval_linear_utility_np [1] [10] : ℚ) : ℝ) = ((10 : ℚ) : ℝ)
    rw [show eval_linear_utility_np [1] [10] = 10 from by with_unfolding_all decide]
  have hwelf : (solve_sequential_fallback C4data).welfare
      = ∑ i : Fin 1, (C4data.priority_weights i : ℝ) *
          Real.log ((solve_sequential_fallback C4data).utilities i + 1 / 100000000) := rfl
  rw [hwelf]
  simp only [Fin.sum_univ_one]
  rw [hu]
  have hc : ((C4data.priority_weights 0 : ℚ) : ℝ) = 1 := by norm_num [C4data]
  rw [hc, one_mul, one_mul]
  have hmax : max ((10 : ℚ) : ℝ) ((epsilon : ℚ) : ℝ) = ((10 : ℚ) : ℝ) := by
    rw [max_eq_left]
    norm_num [epsilon]
  rw [hmax]
  have hlt : Real.log ((10 : ℚ) : ℝ) < Real.log (((10 : ℚ) : ℝ) + 1 / 100000000) := by
    apply Real.log_lt_log
    · norm_num
    · norm_num
  exact ne_of_gt hlt

/-- C8 (amended): the exact evaluator for `AsymmetricLogLossAversion` first
clamps its parameters — `lambda_param = max(1, lambda)` and
`kappa = max(epsilon, kappa)` — and then computes the weighted sum over the
named resources of the piecewise `g(x) = log(1 + x/kappa)` for `x ≥ 0` and
`g(x) = -lambda_param · log(1 + |x|/kappa)` for `x < 0`; for `lambda < 1`
the unclamped formula of the claim does not hold (see counterexample). -/
theorem C8_asymmetric_piecewise (names : List String) (a : List ℚ)
    (weights reference_points : List (String × ℚ)) (lambda kappa : ℚ) :
    eval_asymmetric_log_loss_aversion_np names a weights reference_points lambda kappa
      = (weights.map (fun p =>
          match resToIdxLast names p.1 with
          | none => (0 : ℝ)
          | some j =>
            let x : ℚ := allocAt a j - lookupRef reference_points p.1
            (p.2 : ℝ) *
              (if 0 ≤ x then Real.log (1 + (x : ℝ) / ((max epsilon kappa : ℚ) : ℝ))
               else -((max 1 lambda : ℚ) : ℝ)
                 * Real.log (1 + ((|x| : ℚ) : ℝ) / ((max epsilon kappa : ℚ) : ℝ))))).sum := by
  unfold eval_asymmetric_log_loss_aversion_np
  rw [asym_foldl_sum names a reference_points lambda kappa weights 0, zero_add]

/-- C8 counterexample: for `lambda = 1/2`, `kappa = 10`, one named resource
with weight 1, reference 20 and allocation 10 (so `x = -10 < 0`), the code
computes `-max(1, 1/2) · log(1 + 1) = -log 2`, not the claimed
`-(1/2) · log 2`. -/
theorem C8_asymmetric_piecewise_cex :
    eval_asymmetric_log_loss_aversion_np ["r"] [10] [("r", 1)] [("r", 20)] (1 / 2) 10
      ≠ -((1 / 2 : ℚ) : ℝ) * Real.log 2 := by
  have hL : eval_asymmetric_log_loss_aversion_np ["r"] [10] [("r", 1)] [("r", 20)] (1 / 2) 10
      = -Real.log 2 := by
    unfold eval_asymmetric_log_loss_aversion_np
    simp only [List.foldl_cons, List.foldl_nil]
    rw [show resToIdxLast ["r"] "r" = some 0 from rfl]
    have hx : allocAt [10] 0 - lookupRef [("r", 20)] "r" = -10 := by
      with_unfolding_all decide
    simp only [hx]
    rw [if_neg (by norm_num)]
    rw [show ((max 1 (1 / 2 : ℚ) : ℚ) : ℝ) = 1 from by norm_num]
    rw [show ((|(-10 : ℚ)| : ℚ) : ℝ) = 10 from by norm_num]
    rw [show ((max epsilon 10 : ℚ) : ℝ) = 10 from by norm_num [epsilon]]
    rw [show (1 : ℝ) + 10 / 10 = 2 from by norm_num]
    push_cast
    ring
  rw [hL]
  intro hEq
  have hpos : 0 < Real.log 2 := Real.log_pos (by norm_num)
  have h2 : -Real.log 2 = -(1 / 2 : ℝ) * Real.log 2 := by
    rw [hEq]
    norm_num
  nlinarith [h2]

/-- C9: the exact evaluator for `SoftplusLossAversion` computes the weighted
sum over the named resources of the numerically stable piecewise form:
`g(x) = x` when `x/tau > 20`, `g(x) = lambda · x` when `x/tau < -20`, and the
closed form `x - (lambda - 1) · tau · log(1 + exp(-x/tau))` otherwise; names
missing from the resource list contribute nothing and missing reference
points default to 0. The parameters are used unclamped. -/
theorem C9_softplus_piecewise (names : List String) (a : List ℚ)
    (weights reference_points : List (String × ℚ)) (lambda tau : ℚ) :
    eval_softplus_loss_aversion_np names a weights reference_points lambda tau
      = (weights.map (fun p =>
          match resToIdxLast names p.1 with
          | none => (0 : ℝ)
          | some j =>
            let x : ℚ := allocAt a j - lookupRef reference_points p.1
            (p.2 : ℝ) *
              (if 20 < x / tau then (x : ℝ)
               else if x / tau < -20 then (lambda : ℝ) * (x : ℝ)
               else (x : ℝ) - ((lambda : ℝ) - 1) * (tau : ℝ)
                 * Real.log (1 + Real.exp (-((x : ℝ) / (tau : ℝ))))))).sum := by
  unfold eval_softplus_loss_aversion_np
  rw [softplus_foldl_sum names a reference_points lambda tau weights 0, zero_add]

end JointSolver
